import Mathlib

/-!
vec-list: an id-linked doubly-linked list over a vector of slots.

Shallow embedding of `src/llist.h` (class `List<T>`), followed by the theorems
about it.

Modelling conventions.

* `std::vector<Node> m_nodes` is a `List (Node T)`; `m_nodes[i]` with `i` outside
  the vector is undefined in C++ and is the fault `Fault.out_of_range` here.
* `std::optional` is `Option`; `*opt` on an empty optional is the fault
  `Fault.empty_optional`.
* `assert(c)` with `c` false is the fault `Fault.assertion`.
* `std::unordered_set<size_type> m_free_ids` is the list of its elements in
  iteration order: `begin()` is the head, `size()` the length. The private method
  `pop`, the only code that adds to the set, has no caller in the source and is not
  embedded: where a new id lands in the iteration order is left to the hash table.
* `size_type` values are natural numbers. The watermark `m_max_id` counts slots
  of the vector, which cannot hold `2^64` nodes, so `m_max_id++` does not wrap;
  the one unsigned subtraction of the source (`nb_ids`) wraps at `2^64`.
* A cursor `It` keeps only `m_id`: every cursor in this development belongs to
  the list it is used with, which is passed explicitly (the `m_ls` pointer).
-/

namespace VecList

/-- Ways in which an operation of the source fails to produce a result. -/
inductive Fault where
  | out_of_range
  | empty_optional
  | assertion
  | out_of_fuel
  deriving DecidableEq, Repr

/-- The struct `Node`: payload and the two links, all optional. -/
structure Node (T : Type) where
  value : Option T
  next_id : Option Nat
  prev_id : Option Nat
  deriving DecidableEq, Repr

/-- The class `It`, reduced to its `m_id` member; `none` is the end sentinel. -/
structure It where
  m_id : Option Nat
  deriving DecidableEq, Repr

/-- The data members of `List<T>` (named `Ls` after the typedef in `It`). -/
structure Ls (T : Type) where
  m_nodes : List (Node T)
  m_first_id : Option Nat
  m_last_id : Option Nat
  m_free_ids : List Nat
  m_max_id : Nat
  deriving DecidableEq, Repr

/-- Modulus of `size_type` arithmetic. -/
def SIZE_WRAP : Nat := 2 ^ 64

/-- Default-constructed `Node`: every optional empty. -/
def Node.blank {T : Type} : Node T :=
  { value := none, next_id := none, prev_id := none }

/-- The constructor `List()`: empty vector and set, absent anchors, watermark 0. -/
def Ls.init {T : Type} : Ls T :=
  { m_nodes := [], m_first_id := none, m_last_id := none, m_free_ids := [], m_max_id := 0 }

/-- Checked read of `m_nodes[i]`. -/
def nodeAt {T : Type} (nodes : List (Node T)) (i : Nat) : Except Fault (Node T) :=
  match nodes[i]? with
  | some n => .ok n
  | none => .error .out_of_range

/-- Write through a reference `Node& n = m_nodes[i]`: `n` becomes `f n`. -/
def updNode {T : Type} (nodes : List (Node T)) (i : Nat) (f : Node T → Node T) :
    Except Fault (List (Node T)) :=
  match nodes[i]? with
  | some n => .ok (nodes.set i (f n))
  | none => .error .out_of_range

/-- The call `std::vector::resize(n)`: truncate, or pad with default nodes. -/
def resize {T : Type} (nodes : List (Node T)) (n : Nat) : List (Node T) :=
  nodes.take n ++ List.replicate (n - nodes.length) Node.blank

/-- The method `nb_ids`: `m_max_id - m_free_ids.size()` in `size_type` arithmetic. -/
def nb_ids {T : Type} (l : Ls T) : Nat :=
  if l.m_free_ids.length ≤ l.m_max_id then l.m_max_id - l.m_free_ids.length
  else l.m_max_id + SIZE_WRAP - l.m_free_ids.length

/-- The method `size`. -/
def size {T : Type} (l : Ls T) : Nat := nb_ids l

/-- The method `empty`. -/
def empty {T : Type} (l : Ls T) : Bool := size l == 0

/-- The methods `begin` and `cbegin`: a cursor holding `m_first_id`. -/
def cbegin {T : Type} (l : Ls T) : It := { m_id := l.m_first_id }

/-- The methods `end` and `cend`: the cursor without an id. -/
def cend {T : Type} (_l : Ls T) : It := { m_id := none }

/-- The cursor method `operator++`. -/
def It.inc {T : Type} (l : Ls T) (it : It) : Except Fault It :=
  match it.m_id with
  | some id =>
    match nodeAt l.m_nodes id with
    | .ok node => .ok { m_id := node.next_id }
    | .error e => .error e
  | none => .ok it

/-- The cursor method `operator--`. -/
def It.dec {T : Type} (l : Ls T) (it : It) : Except Fault It :=
  match it.m_id with
  | some id =>
    match nodeAt l.m_nodes id with
    | .ok node => .ok { m_id := node.prev_id }
    | .error e => .error e
  | none => .ok { m_id := l.m_last_id }

/-- The cursor method `operator*`. -/
def It.deref {T : Type} (l : Ls T) (it : It) : Except Fault T :=
  match it.m_id with
  | none => .error .empty_optional
  | some id =>
    match nodeAt l.m_nodes id with
    | .ok node =>
      match node.value with
      | some v => .ok v
      | none => .error .empty_optional
    | .error e => .error e

/-- The method `front`: `*begin()`. -/
def front {T : Type} (l : Ls T) : Except Fault T := It.deref l (cbegin l)

/-- The method `back`: `tmp = end(); --tmp; *tmp`. -/
def back {T : Type} (l : Ls T) : Except Fault T :=
  match It.dec l (cend l) with
  | .ok tmp => It.deref l tmp
  | .error e => .error e

/-- The method `clear`. -/
def clear {T : Type} (l : Ls T) : Ls T :=
  { l with m_nodes := [], m_free_ids := [], m_first_id := none, m_last_id := none, m_max_id := 0 }

/-- The method `put`: take an id (from the free set, else the watermark), resize the
vector when `id <= m_nodes.size()`, and overwrite the slot. Returns the `Entry` id. -/
def put {T : Type} (l : Ls T) (value : T) : Except Fault (Ls T × Nat) :=
  let p : Nat × Ls T :=
    match l.m_free_ids with
    | id :: rest => (id, { l with m_free_ids := rest })
    | [] => (l.m_max_id, { l with m_max_id := l.m_max_id + 1 })
  let id := p.1
  let l1 := p.2
  let nodes := if id ≤ l1.m_nodes.length then resize l1.m_nodes (id + 1) else l1.m_nodes
  match updNode nodes id (fun _ => { value := some value, next_id := none, prev_id := none }) with
  | .ok nodes2 => .ok ({ l1 with m_nodes := nodes2 }, id)
  | .error e => .error e

/-- The method `insert(const_iterator pos, T&& value)`. -/
def insert {T : Type} (l0 : Ls T) (pos : It) (value : T) : Except Fault (Ls T × It) :=
  match put l0 value with
  | .error e => .error e
  | .ok (l, e) =>
    match pos.m_id with
    | none =>
      match l.m_last_id with
      | none =>
        if l.m_first_id.isSome then .error .assertion
        else
          let l2 := { l with m_first_id := some e, m_last_id := some e }
          .ok (l2, { m_id := l2.m_last_id })
      | some last =>
        match updNode l.m_nodes last (fun n => { n with next_id := some e }) with
        | .error f => .error f
        | .ok nodes1 =>
          match updNode nodes1 e (fun n => { n with prev_id := l.m_last_id }) with
          | .error f => .error f
          | .ok nodes2 =>
            let l2 := { l with m_nodes := nodes2, m_last_id := some e }
            .ok (l2, { m_id := l2.m_last_id })
    | some next_id =>
      match nodeAt l.m_nodes next_id with
      | .error f => .error f
      | .ok next_node =>
        match next_node.prev_id with
        | none =>
          match l.m_first_id with
          | none =>
            if l.m_last_id.isSome then .error .assertion
            else
              let l2 := { l with m_first_id := some e, m_last_id := some e }
              .ok (l2, { m_id := l2.m_first_id })
          | some first =>
            match updNode l.m_nodes first (fun n => { n with prev_id := some e }) with
            | .error f => .error f
            | .ok nodes1 =>
              match updNode nodes1 e (fun n => { n with next_id := l.m_first_id }) with
              | .error f => .error f
              | .ok nodes2 =>
                let l2 := { l with m_nodes := nodes2, m_first_id := some e }
                .ok (l2, { m_id := l2.m_first_id })
        | some prev_id =>
          match updNode l.m_nodes prev_id (fun n => { n with next_id := some e }) with
          | .error f => .error f
          | .ok nodes1 =>
            match updNode nodes1 next_id (fun n => { n with prev_id := some e }) with
            | .error f => .error f
            | .ok nodes2 =>
              match updNode nodes2 e (fun n => { n with prev_id := some prev_id }) with
              | .error f => .error f
              | .ok nodes3 =>
                match updNode nodes3 e (fun n => { n with next_id := some next_id }) with
                | .error f => .error f
                | .ok nodes4 => .ok ({ l with m_nodes := nodes4 }, { m_id := some e })

/-- The method `push_back`: `insert(end(), value)`, result discarded. -/
def push_back {T : Type} (l : Ls T) (value : T) : Except Fault (Ls T) :=
  match insert l (cend l) value with
  | .ok r => .ok r.1
  | .error e => .error e

/-- The method `push_front`: `insert(begin(), value)`, result discarded. -/
def push_front {T : Type} (l : Ls T) (value : T) : Except Fault (Ls T) :=
  match insert l (cbegin l) value with
  | .ok r => .ok r.1
  | .error e => .error e

/-- The method `erase(const_iterator pos)`. Its body in the source is empty: no
statement runs, so the list is left as it was, and no cursor is returned. -/
def erase {T : Type} (l : Ls T) (_pos : It) : Ls T × Option It := (l, none)

/-- The method `pop_front`: `erase(begin())`. -/
def pop_front {T : Type} (l : Ls T) : Ls T := (erase l (cbegin l)).1

/-- The method `pop_back`: `erase(end())`. -/
def pop_back {T : Type} (l : Ls T) : Ls T := (erase l (cend l)).1

/-- The client loop `for (it = start; it != end(); ++it)`, recording for each
position the id held by the cursor and `*it`. At most `fuel` iterations. -/
def walk {T : Type} (l : Ls T) : Nat → It → Except Fault (List (Nat × T))
  | fuel, it =>
    match it.m_id with
    | none => .ok []
    | some id =>
      match fuel with
      | 0 => .error .out_of_fuel
      | fuel + 1 =>
        match It.deref l it with
        | .error e => .error e
        | .ok v =>
          match It.inc l it with
          | .error e => .error e
          | .ok it2 =>
            match walk l fuel it2 with
            | .error e => .error e
            | .ok rest => .ok ((id, v) :: rest)

/-- Forward traversal from `begin()` to `end()`: the (id, payload) pairs visited.
A chain without repetition visits no more slots than the vector holds. -/
def cells {T : Type} (l : Ls T) : Except Fault (List (Nat × T)) :=
  walk l l.m_nodes.length (cbegin l)

/-- Id of the first cell of a chain segment; `nxt` when the segment is empty. -/
def headId {T : Type} (cs : List (Nat × T)) (nxt : Option Nat) : Option Nat :=
  match cs with
  | [] => nxt
  | c :: _ => some c.1

/-- Id of the last cell of a chain segment; `prev` when the segment is empty. -/
def lastId {T : Type} : Option Nat → List (Nat × T) → Option Nat
  | prev, [] => prev
  | _, c :: rest => lastId (some c.1) rest

/-- The slots named by `cs` form a doubly-linked segment of the vector: each holds
its payload, points forward to the following cell (`nxt` after the last one) and
backward to the preceding cell (`prev` before the first one). -/
def Seg {T : Type} (nodes : List (Node T)) : Option Nat → List (Nat × T) → Option Nat → Prop
  | _, [], _ => True
  | prev, c :: rest, nxt =>
    nodes[c.1]? = some { value := some c.2, next_id := headId rest nxt, prev_id := prev }
      ∧ Seg nodes (some c.1) rest nxt

/-- Well-formedness of a list state whose forward traversal is `cs`: nothing has been
released, the vector has one slot per allocated id, every slot is on the chain
exactly once, and the anchors are the two ends of the chain. -/
def Inv {T : Type} (l : Ls T) (cs : List (Nat × T)) : Prop :=
  l.m_free_ids = [] ∧ l.m_nodes.length = l.m_max_id ∧ cs.length = l.m_max_id
    ∧ (cs.map Prod.fst).Nodup ∧ l.m_first_id = headId cs none ∧ l.m_last_id = lastId none cs
    ∧ Seg l.m_nodes none cs none

/-- States reachable from the empty list by the public mutating operations, each
called within its precondition on the cursor it is given (the end sentinel or a
cursor on an element of the traversal). -/
inductive Reachable {T : Type} : Ls T → Prop where
  | init : Reachable Ls.init
  | insert {l l2 : Ls T} {pos it : It} {v : T} {cs : List (Nat × T)} :
      Reachable l → cells l = .ok cs →
      (pos.m_id = none ∨ ∃ id, pos.m_id = some id ∧ id ∈ cs.map Prod.fst) →
      insert l pos v = .ok (l2, it) → Reachable l2
  | push_back {l l2 : Ls T} {v : T} : Reachable l → push_back l v = .ok l2 → Reachable l2
  | push_front {l l2 : Ls T} {v : T} : Reachable l → push_front l v = .ok l2 → Reachable l2
  | erase {l : Ls T} (pos : It) : Reachable l → Reachable (erase l pos).1
  | pop_back {l : Ls T} : Reachable l → Reachable (pop_back l)
  | pop_front {l : Ls T} : Reachable l → Reachable (pop_front l)
  | clear {l : Ls T} : Reachable l → Reachable (clear l)

/-- Forward traversal read as the sequence of payloads. -/
def values {T : Type} (l : Ls T) : Except Fault (List T) :=
  match cells l with
  | .ok cs => .ok (cs.map Prod.snd)
  | .error e => .error e

/-- Forward traversal read as the sequence of ids the cursor holds. -/
def ids {T : Type} (l : Ls T) : Except Fault (List Nat) :=
  match cells l with
  | .ok cs => .ok (cs.map Prod.fst)
  | .error e => .error e

/-- A call of one of the four end operations. -/
inductive Op (T : Type) where
  | push_back (v : T)
  | push_front (v : T)
  | pop_back
  | pop_front
  deriving DecidableEq, Repr

/-- Whether the call is a push. -/
def Op.isPush {T : Type} : Op T → Bool
  | .push_back _ => true
  | .push_front _ => true
  | .pop_back => false
  | .pop_front => false

/-- Perform one call on the list. -/
def step {T : Type} (l : Ls T) : Op T → Except Fault (Ls T)
  | .push_back v => push_back l v
  | .push_front v => push_front l v
  | .pop_back => .ok (pop_back l)
  | .pop_front => .ok (pop_front l)

/-- Perform a sequence of calls, left to right, stopping at the first fault. -/
def run {T : Type} (l : Ls T) : List (Op T) → Except Fault (Ls T)
  | [] => .ok l
  | op :: ops =>
    match step l op with
    | .ok l2 => run l2 ops
    | .error e => .error e

/-- The reference double-ended queue: one call on a plain sequence. -/
def refStep {T : Type} (xs : List T) : Op T → List T
  | .push_back v => xs ++ [v]
  | .push_front v => v :: xs
  | .pop_back => xs.dropLast
  | .pop_front => xs.tail

/-- The reference double-ended queue driven by a sequence of calls. -/
def refRun {T : Type} (xs : List T) (ops : List (Op T)) : List T :=
  ops.foldl refStep xs

/-- The state after `push_back(1); push_back(2)` on an empty `List<int>`. -/
def ex12 : Ls Nat :=
  { m_nodes := [{ value := some 1, next_id := some 1, prev_id := none },
                { value := some 2, next_id := none, prev_id := some 0 }],
    m_first_id := some 0, m_last_id := some 1, m_free_ids := [], m_max_id := 2 }

/-- The state after `push_back(1); push_back(2); push_back(3)`, as in `test_basic_usage`. -/
def ex123 : Ls Nat :=
  { m_nodes := [{ value := some 1, next_id := some 1, prev_id := none },
                { value := some 2, next_id := some 2, prev_id := some 0 },
                { value := some 3, next_id := none, prev_id := some 1 }],
    m_first_id := some 0, m_last_id := some 2, m_free_ids := [], m_max_id := 3 }

/-- The loop of the range form `insert(pos, first, last)`: `it = insert(pos, *first)`
for each element of the input range, here the list of values the range yields. The
call in the loop body is the single-element `insert(const_iterator, T&&)`, the only
overload that takes a position and one value; it binds when `*first` is an rvalue. -/
def insert_range_loop {T : Type} (l : Ls T) (pos it : It) : List T → Except Fault (Ls T × It)
  | [] => .ok (l, it)
  | x :: rest =>
    match insert l pos x with
    | .ok (l2, it2) => insert_range_loop l2 pos it2 rest
    | .error e => .error e

/-- The method `insert(const_iterator pos, InputIt first, InputIt last)`: the loop
started with `it = pos`. -/
def insert_range {T : Type} (l : Ls T) (pos : It) (xs : List T) : Except Fault (Ls T × It) :=
  insert_range_loop l pos pos xs

/-- The loop of the count form: `for (; count > 0; --count) it = insert(pos, value)`.
In the source `value` is a `const T&`, which does not bind to the `T&&` of the
single-element `insert`, so the count form cannot be instantiated; the loop is
embedded as it reads, with the call taken to be the single-element `insert`. -/
def insert_count_loop {T : Type} (l : Ls T) (pos it : It) : Nat → T → Except Fault (Ls T × It)
  | 0, _ => .ok (l, it)
  | count + 1, value =>
    match insert l pos value with
    | .ok (l2, it2) => insert_count_loop l2 pos it2 count value
    | .error e => .error e

/-- The method `insert(const_iterator pos, size_type count, const T& value)`: the loop
started with `it = pos`. -/
def insert_count {T : Type} (l : Ls T) (pos : It) (count : Nat) (value : T) :
    Except Fault (Ls T × It) :=
  insert_count_loop l pos pos count value

/-- The method `erase(const_iterator first, const_iterator last)`. Its body in the
source is empty, like that of the single-position `erase`. -/
def erase_range {T : Type} (l : Ls T) (_first _last : It) : Ls T × Option It := (l, none)

/-- The adaptor `std::reverse_iterator<It>`: it wraps a cursor `current`. -/
structure RevIt where
  current : It
  deriving DecidableEq, Repr

/-- The methods `rbegin` and `rcbegin`: `reverse_iterator(begin())`. -/
def rbegin {T : Type} (l : Ls T) : RevIt := { current := cbegin l }

/-- The methods `rend` and `rcend`: `reverse_iterator(end())`. -/
def rend {T : Type} (l : Ls T) : RevIt := { current := cend l }

/-- The adaptor method `operator*`: `tmp = current; --tmp; *tmp`. -/
def RevIt.deref {T : Type} (l : Ls T) (r : RevIt) : Except Fault T :=
  match It.dec l r.current with
  | .ok tmp => It.deref l tmp
  | .error e => .error e

/-- The adaptor method `operator++`: `--current`. -/
def RevIt.inc {T : Type} (l : Ls T) (r : RevIt) : Except Fault RevIt :=
  match It.dec l r.current with
  | .ok c => .ok { current := c }
  | .error e => .error e

/-- The client loop `for (r = start; r != stop; ++r)` over reverse cursors, recording
`*r` at each position. At most `fuel` iterations. -/
def rwalk {T : Type} (l : Ls T) (stop : RevIt) : Nat → RevIt → Except Fault (List T)
  | fuel, r =>
    if r = stop then .ok []
    else
      match fuel with
      | 0 => .error .out_of_fuel
      | fuel + 1 =>
        match RevIt.deref l r with
        | .error e => .error e
        | .ok v =>
          match RevIt.inc l r with
          | .error e => .error e
          | .ok r2 =>
            match rwalk l stop fuel r2 with
            | .error e => .error e
            | .ok rest => .ok (v :: rest)

/-- The client loop that follows backward links: starting from a cursor, record the
id and `*it`, then `--it`, until the cursor has no id. At most `fuel` iterations. -/
def walk_back {T : Type} (l : Ls T) : Nat → It → Except Fault (List (Nat × T))
  | fuel, it =>
    match it.m_id with
    | none => .ok []
    | some id =>
      match fuel with
      | 0 => .error .out_of_fuel
      | fuel + 1 =>
        match It.deref l it with
        | .error e => .error e
        | .ok v =>
          match It.dec l it with
          | .error e => .error e
          | .ok it2 =>
            match walk_back l fuel it2 with
            | .error e => .error e
            | .ok rest => .ok ((id, v) :: rest)

/-- The cells allocated for the values `ys` when the watermark is `m` and nothing is
free: consecutive ids from `m`, in the order of the values. -/
def fresh {T : Type} : Nat → List T → List (Nat × T)
  | _, [] => []
  | m, y :: ys => (m, y) :: fresh (m + 1) ys

/-- The arena state of the data model: the backing store has one slot per id below
`m_max_id`, and the free set holds distinct ids below `m_max_id`. -/
def ArenaOk {T : Type} (l : Ls T) : Prop :=
  l.m_nodes.length = l.m_max_id ∧ l.m_free_ids.Nodup ∧ ∀ i ∈ l.m_free_ids, i < l.m_max_id

/-- The slot `id` is inside the backing store and its payload is present. -/
def InStore {T : Type} (l : Ls T) (id : Nat) : Prop :=
  id < l.m_nodes.length ∧ ∃ node v, l.m_nodes[id]? = some node ∧ node.value = some v

/-- An arena state with a released slot: the list `1, 2, 3` of `ex123` once its first
element (id 0) has been detached, cleared and released as the data model describes. -/
def exFreed : Ls Nat :=
  { m_nodes := [{ value := none, next_id := none, prev_id := none },
                { value := some 2, next_id := some 2, prev_id := none },
                { value := some 3, next_id := none, prev_id := some 1 }],
    m_first_id := some 1, m_last_id := some 2, m_free_ids := [0], m_max_id := 3 }

/-! ## Chain segments -/

theorem headId_append {T : Type} (xs ys : List (Nat × T)) (nxt : Option Nat) :
    headId (xs ++ ys) nxt = headId xs (headId ys nxt) := by
  cases xs <;> rfl

theorem lastId_append {T : Type} (xs ys : List (Nat × T)) (prev : Option Nat) :
    lastId prev (xs ++ ys) = lastId (lastId prev xs) ys := by
  induction xs generalizing prev with
  | nil => rfl
  | cons c xs ih => exact ih (some c.1)

theorem Seg_cons {T : Type} (nodes : List (Node T)) (c : Nat × T) (rest : List (Nat × T))
    (prev nxt : Option Nat) :
    Seg nodes prev (c :: rest) nxt ↔
      nodes[c.1]? = some { value := some c.2, next_id := headId rest nxt, prev_id := prev }
        ∧ Seg nodes (some c.1) rest nxt := Iff.rfl

theorem lastId_cons {T : Type} (c : Nat × T) (rest : List (Nat × T)) (prev : Option Nat) :
    lastId prev (c :: rest) = lastId (some c.1) rest := rfl

theorem Seg_append {T : Type} (nodes : List (Node T)) (xs ys : List (Nat × T))
    (prev nxt : Option Nat) :
    Seg nodes prev (xs ++ ys) nxt ↔
      Seg nodes prev xs (headId ys nxt) ∧ Seg nodes (lastId prev xs) ys nxt := by
  induction xs generalizing prev with
  | nil => simp [Seg, lastId]
  | cons c xs ih =>
    rw [List.cons_append, Seg_cons, Seg_cons, ih, headId_append, lastId_cons, and_assoc]

theorem Seg_congr {T : Type} {nodes nodes2 : List (Node T)} {cs : List (Nat × T)}
    {prev nxt : Option Nat} (h : ∀ c ∈ cs, nodes2[c.1]? = nodes[c.1]?)
    (hs : Seg nodes prev cs nxt) : Seg nodes2 prev cs nxt := by
  induction cs generalizing prev with
  | nil => trivial
  | cons c cs ih =>
    refine ⟨?_, ih (fun d hd => h d (List.mem_cons_of_mem _ hd)) hs.2⟩
    rw [h c (List.mem_cons_self _ _)]
    exact hs.1

theorem Seg_lt {T : Type} {nodes : List (Node T)} {cs : List (Nat × T)}
    {prev nxt : Option Nat} (hs : Seg nodes prev cs nxt) :
    ∀ i ∈ cs.map Prod.fst, i < nodes.length := by
  induction cs generalizing prev with
  | nil => simp
  | cons c cs ih =>
    intro i hi
    simp only [List.map_cons, List.mem_cons] at hi
    rcases hi with rfl | hi
    · by_contra hge
      have : nodes[c.1]? = none := List.getElem?_eq_none (by omega)
      have h1 := hs.1
      rw [this] at h1
      exact absurd h1 (by simp)
    · exact ih hs.2 i hi

theorem Seg_set_of_not_mem {T : Type} {nodes : List (Node T)} {cs : List (Nat × T)}
    {prev nxt : Option Nat} (j : Nat) (x : Node T) (hj : j ∉ cs.map Prod.fst)
    (hs : Seg nodes prev cs nxt) : Seg (nodes.set j x) prev cs nxt := by
  refine Seg_congr (fun c hc => ?_) hs
  have : j ≠ c.1 := fun e => hj (e ▸ List.mem_map_of_mem Prod.fst hc)
  simp [List.getElem?_set_ne this]

theorem Seg_append_nodes {T : Type} {nodes : List (Node T)} {cs : List (Nat × T)}
    {prev nxt : Option Nat} (extra : List (Node T))
    (hs : Seg nodes prev cs nxt) : Seg (nodes ++ extra) prev cs nxt := by
  refine Seg_congr (fun c hc => ?_) hs
  exact List.getElem?_append_left (Seg_lt hs c.1 (List.mem_map_of_mem Prod.fst hc))

/-! ## Traversal of a well-formed chain -/

theorem walk_of_Seg {T : Type} (l : Ls T) (cs : List (Nat × T)) (prev : Option Nat)
    (hs : Seg l.m_nodes prev cs none) (fuel : Nat) :
    walk l fuel { m_id := headId cs none } =
      if cs.length ≤ fuel then .ok cs else .error .out_of_fuel := by
  induction cs generalizing prev fuel with
  | nil => cases fuel <;> simp [walk, headId]
  | cons c cs ih =>
    cases fuel with
    | zero => simp [walk, headId]
    | succ fuel =>
      have h1 := hs.1
      have h2 := ih (some c.1) hs.2 fuel
      have e : headId (c :: cs) none = some c.1 := rfl
      rw [e, walk]
      simp only [It.deref, It.inc, nodeAt, h1, h2, List.length_cons,
        Nat.add_le_add_iff_right]
      by_cases hle : cs.length ≤ fuel <;> simp [hle]

/-! ## Allocation and insertion in a well-formed state -/

theorem updNode_of_getElem? {T : Type} {nodes : List (Node T)} {i : Nat} {n : Node T}
    (h : nodes[i]? = some n) (f : Node T → Node T) :
    updNode nodes i f = .ok (nodes.set i (f n)) := by
  simp [updNode, h]

theorem put_fresh {T : Type} (l : Ls T) (v : T) (hf : l.m_free_ids = [])
    (hn : l.m_nodes.length = l.m_max_id) :
    put l v = .ok ({ l with m_max_id := l.m_max_id + 1,
                            m_nodes := l.m_nodes ++ [{ value := some v, next_id := none, prev_id := none }] },
                   l.m_max_id) := by
  obtain ⟨nodes, first, last, free, max⟩ := l
  simp only at hf hn
  subst hf hn
  have hr : resize nodes (nodes.length + 1) = nodes ++ [Node.blank] := by
    simp [resize, List.take_of_length_le]
  have hg : (nodes ++ [(Node.blank : Node T)])[nodes.length]? = some Node.blank := by
    simp
  simp [put, hr, updNode_of_getElem? hg]


theorem lastId_concat {T : Type} (xs : List (Nat × T)) (c : Nat × T) (prev : Option Nat) :
    lastId prev (xs ++ [c]) = some c.1 := by
  rw [lastId_append]; rfl

theorem insert_end_of_Inv {T : Type} (l : Ls T) (cs : List (Nat × T)) (h : Inv l cs)
    (pos : It) (hpos : pos.m_id = none) (v : T) :
    ∃ l2, insert l pos v = .ok (l2, { m_id := some l.m_max_id })
      ∧ Inv l2 (cs ++ [(l.m_max_id, v)]) := by
  obtain ⟨hf, hn, hlen, hnd, hfirst, hlast, hseg⟩ := h
  have hput := put_fresh l v hf hn
  have hE : ∀ i ∈ cs.map Prod.fst, i < l.m_nodes.length := Seg_lt hseg
  have hsegN := Seg_append_nodes [Node.mk (some v) none none] hseg
  obtain ⟨nodes, first, last, free, max⟩ := l
  simp only at hf hn hlen hfirst hlast hseg hput hE hsegN ⊢
  subst hf hn
  rcases List.eq_nil_or_concat cs with rfl | ⟨pre, c, rfl⟩
  · -- the list was empty
    simp only [headId, lastId] at hfirst hlast
    subst hfirst hlast
    refine ⟨{ m_nodes := nodes ++ [Node.mk (some v) none none],
              m_first_id := some nodes.length, m_last_id := some nodes.length,
              m_free_ids := [], m_max_id := nodes.length + 1 }, ?_, ?_⟩
    · simp [insert, hput, hpos]
    · have hnil : nodes = [] := List.length_eq_zero.mp hlen.symm
      subst hnil
      refine ⟨rfl, by simp, by simp, by simp, rfl, rfl, ?_⟩
      simp [Seg, headId]
  · obtain ⟨p, vp⟩ := c
    simp only [List.concat_eq_append] at hnd hfirst hlast hseg hE hsegN hlen ⊢
    rw [lastId_concat] at hlast
    subst hlast
    rw [Seg_append, Seg_cons] at hsegN
    obtain ⟨hpre, hp, -⟩ := hsegN
    simp only [headId] at hp hpre
    have hpE : p ≠ nodes.length := by
      have := hE p (by simp)
      omega
    have hEpre : nodes.length ∉ pre.map Prod.fst := fun hm => by
      have := hE nodes.length (by simp only [List.map_append, List.mem_append]; exact Or.inl hm)
      omega
    have hppre : p ∉ pre.map Prod.fst := by
      simp only [List.map_append, List.map_cons, List.map_nil] at hnd
      have := (List.nodup_append.mp hnd).2.2
      intro hm
      exact this hm (by simp)
    refine ⟨{ m_nodes := ((nodes ++ [Node.mk (some v) none none]).set p
                (Node.mk (some vp) (some nodes.length) (lastId none pre))).set
                nodes.length (Node.mk (some v) none (some p)),
              m_first_id := first, m_last_id := some nodes.length,
              m_free_ids := [], m_max_id := nodes.length + 1 }, ?_, ?_⟩
    · have h2 : ((nodes ++ [Node.mk (some v) none none]).set p
                (Node.mk (some vp) (some nodes.length) (lastId none pre)))[nodes.length]?
                = some (Node.mk (some v) none none) := by
        rw [List.getElem?_set_ne hpE]; simp
      simp [insert, hput, hpos, updNode_of_getElem? hp, updNode_of_getElem? h2]
    · have hpl : p < nodes.length := hE p (by simp)
      refine ⟨rfl, by simp, by simpa using hlen, ?_, ?_, ?_, ?_⟩
      · simp only [List.map_append, List.map_cons, List.map_nil] at hnd ⊢
        refine List.nodup_append.mpr ⟨hnd, by simp, ?_⟩
        intro a ha hb
        simp only [List.mem_singleton] at hb
        rw [hb] at ha
        have := hE nodes.length (by simpa using ha)
        omega
      · show first = _
        rw [hfirst, List.append_assoc, headId_append, headId_append]
        cases pre <;> rfl
      · show some nodes.length = _
        rw [lastId_concat]
      · show Seg _ none ((pre ++ [(p, vp)]) ++ [(nodes.length, v)]) none
        rw [List.append_assoc, Seg_append]
        refine ⟨Seg_set_of_not_mem _ _ hEpre (Seg_set_of_not_mem _ _ hppre hpre), ?_⟩
        simp only [List.singleton_append, Seg_cons, headId, Seg, and_true]
        refine ⟨?_, ?_⟩
        · rw [List.getElem?_set_ne (Ne.symm hpE), List.getElem?_set_self (by simp; omega)]
          rfl
        · rw [List.getElem?_set_self (by simp)]


theorem insert_before_of_Inv {T : Type} (l : Ls T) (pre post : List (Nat × T)) (n : Nat) (vn : T)
    (h : Inv l (pre ++ (n, vn) :: post)) (pos : It) (hpos : pos.m_id = some n) (v : T) :
    ∃ l2, insert l pos v = .ok (l2, { m_id := some l.m_max_id })
      ∧ Inv l2 (pre ++ (l.m_max_id, v) :: (n, vn) :: post) := by
  obtain ⟨hf, hn, hlen, hnd, hfirst, hlast, hseg⟩ := h
  have hput := put_fresh l v hf hn
  have hE : ∀ i ∈ (pre ++ (n, vn) :: post).map Prod.fst, i < l.m_nodes.length := Seg_lt hseg
  have hsegN := Seg_append_nodes [Node.mk (some v) none none] hseg
  obtain ⟨nodes, first, last, free, max⟩ := l
  simp only at hf hn hlen hfirst hlast hseg hput hE hsegN ⊢
  subst hf hn
  rw [Seg_append, Seg_cons] at hsegN
  obtain ⟨hpre, hnN, hpost⟩ := hsegN
  simp only [headId] at hpre
  simp only [List.map_append, List.map_cons] at hnd hE
  have hnd2 := List.nodup_append.mp hnd
  have hnl : n < nodes.length := hE n (by simp)
  have hnE : n ≠ nodes.length := by omega
  have hEpre : nodes.length ∉ pre.map Prod.fst := fun hm => by
    have := hE nodes.length (by simp [hm]); omega
  have hEpost : nodes.length ∉ post.map Prod.fst := fun hm => by
    have := hE nodes.length (by simp [hm]); omega
  have hnpre : n ∉ pre.map Prod.fst := fun hm => hnd2.2.2 hm (by simp)
  have hnpost : n ∉ post.map Prod.fst := (List.nodup_cons.mp hnd2.2.1).1
  rcases List.eq_nil_or_concat pre with rfl | ⟨pre1, c, rfl⟩
  · -- pos is the first element
    simp only [lastId] at hnN
    simp only [List.nil_append, headId] at hfirst
    subst hfirst
    refine ⟨{ m_nodes := ((nodes ++ [Node.mk (some v) none none]).set n
                (Node.mk (some vn) (headId post none) (some nodes.length))).set
                nodes.length (Node.mk (some v) (some n) none),
              m_first_id := some nodes.length, m_last_id := last,
              m_free_ids := [], m_max_id := nodes.length + 1 }, ?_, ?_⟩
    · have h2 : ((nodes ++ [Node.mk (some v) none none]).set n
                (Node.mk (some vn) (headId post none) (some nodes.length)))[nodes.length]?
                = some (Node.mk (some v) none none) := by
        rw [List.getElem?_set_ne hnE]; simp
      simp [insert, hput, hpos, nodeAt, hnN, updNode_of_getElem? hnN, updNode_of_getElem? h2]
    · refine ⟨rfl, by simp, by simpa using hlen, ?_, rfl, ?_, ?_⟩
      · simp only [List.nil_append, List.map_cons]
        exact List.nodup_cons.mpr ⟨by simp [hnE.symm, hEpost], hnd2.2.1⟩
      · exact hlast
      · simp only [List.nil_append]
        rw [Seg_cons, Seg_cons]
        refine ⟨?_, ?_, ?_⟩
        · rw [List.getElem?_set_self (by simp)]
          rfl
        · rw [List.getElem?_set_ne (Ne.symm hnE), List.getElem?_set_self (by simp; omega)]
        · exact Seg_set_of_not_mem _ _ hEpost (Seg_set_of_not_mem _ _ hnpost hpost)
  · obtain ⟨p, vp⟩ := c
    simp only [List.concat_eq_append] at hnd hfirst hlast hseg hE hlen hpre hnN hnd2 hEpre hnpre ⊢
    rw [lastId_concat] at hnN
    rw [Seg_append, Seg_cons] at hpre
    obtain ⟨hpre1, hpN, -⟩ := hpre
    simp only [headId] at hpN hpre1
    simp only [List.map_append, List.map_cons, List.map_nil] at hnd2 hEpre hnpre hE
    have hnd3 := List.nodup_append.mp hnd2.1
    have hpl : p < nodes.length := hE p (by simp)
    have hpE : p ≠ nodes.length := by omega
    have hpn : p ≠ n := fun e => hnpre (by simp [e])
    have hppre : p ∉ pre1.map Prod.fst := fun hm => hnd3.2.2 hm (by simp)
    have hnpre1 : n ∉ pre1.map Prod.fst := fun hm => hnpre (by simp [hm])
    have hEpre1 : nodes.length ∉ pre1.map Prod.fst := fun hm => hEpre (by simp [hm])
    have hppost : p ∉ post.map Prod.fst := fun hm =>
      hnd2.2.2 (show p ∈ pre1.map Prod.fst ++ [p] by simp) (by simp [hm])
    refine ⟨{ m_nodes := ((((nodes ++ [Node.mk (some v) none none]).set p
                (Node.mk (some vp) (some nodes.length) (lastId none pre1))).set n
                (Node.mk (some vn) (headId post none) (some nodes.length))).set
                nodes.length (Node.mk (some v) none (some p))).set
                nodes.length (Node.mk (some v) (some n) (some p)),
              m_first_id := first, m_last_id := last,
              m_free_ids := [], m_max_id := nodes.length + 1 }, ?_, ?_⟩
    · have h2 : ((nodes ++ [Node.mk (some v) none none]).set p
                (Node.mk (some vp) (some nodes.length) (lastId none pre1)))[n]?
                = some (Node.mk (some vn) (headId post none) (some p)) := by
        rw [List.getElem?_set_ne hpn]; exact hnN
      have h3 : (((nodes ++ [Node.mk (some v) none none]).set p
                (Node.mk (some vp) (some nodes.length) (lastId none pre1))).set n
                (Node.mk (some vn) (headId post none) (some nodes.length)))[nodes.length]?
                = some (Node.mk (some v) none none) := by
        rw [List.getElem?_set_ne hnE, List.getElem?_set_ne hpE]; simp
      have h4 : ((((nodes ++ [Node.mk (some v) none none]).set p
                (Node.mk (some vp) (some nodes.length) (lastId none pre1))).set n
                (Node.mk (some vn) (headId post none) (some nodes.length))).set
                nodes.length (Node.mk (some v) none (some p)))[nodes.length]?
                = some (Node.mk (some v) none (some p)) := by
        rw [List.getElem?_set_self (by simp)]
      simp [insert, hput, hpos, nodeAt, hnN, updNode_of_getElem? hpN, updNode_of_getElem? h2,
        updNode_of_getElem? h3, updNode_of_getElem? h4]
    · refine ⟨rfl, by simp, ?_, ?_, ?_, ?_, ?_⟩
      · simp only [List.length_append, List.length_cons, List.length_nil] at hlen ⊢
        omega
      · simp only [List.map_append, List.map_cons, List.map_nil]
        refine List.nodup_append.mpr ⟨hnd2.1, ?_, ?_⟩
        · exact List.nodup_cons.mpr ⟨by simp [hnE.symm, hEpost], hnd2.2.1⟩
        · intro a ha hb
          rcases List.mem_cons.mp hb with rfl | hb
          · exact hEpre ha
          · exact hnd2.2.2 ha hb
      · show first = _
        rw [hfirst]
        simp only [List.append_assoc, headId_append]
        rfl
      · show last = _
        rw [hlast]
        simp only [List.append_assoc, lastId_append]
        rfl
      · show Seg _ none (pre1 ++ [(p, vp)] ++ (nodes.length, v) :: (n, vn) :: post) none
        rw [List.append_assoc, Seg_append]
        refine ⟨?_, ?_⟩
        · exact Seg_set_of_not_mem _ _ hEpre1 (Seg_set_of_not_mem _ _ hEpre1
            (Seg_set_of_not_mem _ _ hnpre1 (Seg_set_of_not_mem _ _ hppre hpre1)))
        · simp only [List.singleton_append, Seg_cons]
          refine ⟨?_, ?_, ?_, ?_⟩
          · rw [List.getElem?_set_ne (Ne.symm hpE), List.getElem?_set_ne (Ne.symm hpE),
              List.getElem?_set_ne (Ne.symm hpn), List.getElem?_set_self (by simp; omega)]
            rfl
          · rw [List.getElem?_set_self (by simp)]
            rfl
          · rw [List.getElem?_set_ne (Ne.symm hnE), List.getElem?_set_ne (Ne.symm hnE),
              List.getElem?_set_self (by simp; omega)]
          · exact Seg_set_of_not_mem _ _ hEpost (Seg_set_of_not_mem _ _ hEpost
              (Seg_set_of_not_mem _ _ hnpost (Seg_set_of_not_mem _ _ hppost hpost)))


theorem insert_of_Inv {T : Type} (l : Ls T) (pre post : List (Nat × T))
    (h : Inv l (pre ++ post)) (pos : It) (hpos : pos.m_id = headId post none) (v : T) :
    ∃ l2, insert l pos v = .ok (l2, { m_id := some l.m_max_id })
      ∧ Inv l2 (pre ++ (l.m_max_id, v) :: post) := by
  cases post with
  | nil =>
    rw [List.append_nil] at h
    exact insert_end_of_Inv l pre h pos hpos v
  | cons c post =>
    obtain ⟨n, vn⟩ := c
    exact insert_before_of_Inv l pre post n vn h pos hpos v

theorem cells_of_Inv {T : Type} {l : Ls T} {cs : List (Nat × T)} (h : Inv l cs) :
    cells l = .ok cs := by
  obtain ⟨-, hn, hlen, -, hfirst, -, hseg⟩ := h
  have := walk_of_Seg l cs none hseg l.m_nodes.length
  rw [if_pos (by omega)] at this
  rw [cells, cbegin, hfirst]
  exact this

theorem Inv_init {T : Type} : Inv (Ls.init : Ls T) [] :=
  ⟨rfl, rfl, rfl, List.nodup_nil, rfl, rfl, trivial⟩

theorem Inv_unique {T : Type} {l : Ls T} {cs ds : List (Nat × T)} (h : Inv l cs)
    (hc : cells l = .ok ds) : ds = cs := by
  rw [cells_of_Inv h] at hc
  exact (Except.ok.inj hc).symm

theorem size_of_Inv {T : Type} {l : Ls T} {cs : List (Nat × T)} (h : Inv l cs) :
    size l = cs.length := by
  obtain ⟨hf, -, hlen, -⟩ := h
  simp [size, nb_ids, hf, hlen]

theorem push_back_of_Inv {T : Type} (l : Ls T) (cs : List (Nat × T)) (h : Inv l cs) (v : T) :
    ∃ l2, push_back l v = .ok l2 ∧ Inv l2 (cs ++ [(l.m_max_id, v)]) := by
  obtain ⟨l2, h1, h2⟩ := insert_end_of_Inv l cs h (cend l) rfl v
  exact ⟨l2, by simp [push_back, h1], h2⟩

theorem push_front_of_Inv {T : Type} (l : Ls T) (cs : List (Nat × T)) (h : Inv l cs) (v : T) :
    ∃ l2, push_front l v = .ok l2 ∧ Inv l2 ((l.m_max_id, v) :: cs) := by
  obtain ⟨l2, h1, h2⟩ := insert_of_Inv l [] cs h (cbegin l) h.2.2.2.2.1 v
  exact ⟨l2, by simp [push_front, h1], h2⟩

theorem Inv_of_Reachable {T : Type} {l : Ls T} (h : Reachable l) : ∃ cs, Inv l cs := by
  induction h with
  | init => exact ⟨[], Inv_init⟩
  | @insert l l2 pos it v cs _ hc hpos hins ih =>
    obtain ⟨ds, hd⟩ := ih
    have hcd := Inv_unique hd hc
    subst hcd
    rcases hpos with hpos | ⟨id, hpos, hmem⟩
    · obtain ⟨l3, h1, h2⟩ := insert_end_of_Inv l cs hd pos hpos v
      rw [h1] at hins
      have := (Prod.mk.inj (Except.ok.inj hins)).1
      exact ⟨_, this ▸ h2⟩
    · obtain ⟨c, hc1, hc2⟩ := List.mem_map.mp hmem
      obtain ⟨pre, post, rfl⟩ := List.append_of_mem hc1
      obtain ⟨l3, h1, h2⟩ := insert_of_Inv l pre (c :: post) hd pos (by rw [hpos, ← hc2]; rfl) v
      rw [h1] at hins
      have := (Prod.mk.inj (Except.ok.inj hins)).1
      exact ⟨_, this ▸ h2⟩
  | @push_back l l2 v _ hp ih =>
    obtain ⟨cs, hd⟩ := ih
    obtain ⟨l3, h1, h2⟩ := push_back_of_Inv l cs hd v
    rw [h1] at hp
    exact ⟨_, (Except.ok.inj hp) ▸ h2⟩
  | @push_front l l2 v _ hp ih =>
    obtain ⟨cs, hd⟩ := ih
    obtain ⟨l3, h1, h2⟩ := push_front_of_Inv l cs hd v
    rw [h1] at hp
    exact ⟨_, (Except.ok.inj hp) ▸ h2⟩
  | erase pos _ ih => exact ih
  | pop_back _ ih => exact ih
  | pop_front _ ih => exact ih
  | clear _ => exact ⟨[], Inv_init⟩


/-! ## Reading a well-formed state -/

theorem headId_none {T : Type} (cs : List (Nat × T)) :
    headId cs none = (cs.map Prod.fst).head? := by
  cases cs <;> rfl

theorem headId_drop {T : Type} (cs : List (Nat × T)) (i : Nat) :
    headId (cs.drop i) none = (cs.map Prod.fst)[i]? := by
  rw [headId_none, List.map_drop, List.head?_drop]

theorem Seg_mem {T : Type} {nodes : List (Node T)} {cs : List (Nat × T)}
    {prev nxt : Option Nat} (hs : Seg nodes prev cs nxt) (c : Nat × T) (hc : c ∈ cs) :
    ∃ nx pv, nodes[c.1]? = some { value := some c.2, next_id := nx, prev_id := pv } := by
  induction cs generalizing prev with
  | nil => cases hc
  | cons d cs ih =>
    rcases List.mem_cons.mp hc with rfl | hc
    · exact ⟨_, _, hs.1⟩
    · exact ih hs.2 hc

theorem deref_of_Inv {T : Type} {l : Ls T} {cs : List (Nat × T)} (h : Inv l cs)
    (c : Nat × T) (hc : c ∈ cs) : It.deref l { m_id := some c.1 } = .ok c.2 := by
  obtain ⟨nx, pv, hn⟩ := Seg_mem h.2.2.2.2.2.2 c hc
  simp [It.deref, nodeAt, hn]

theorem node_of_Inv {T : Type} {l : Ls T} {pre post : List (Nat × T)} {c : Nat × T}
    (h : Inv l (pre ++ c :: post)) :
    l.m_nodes[c.1]? =
      some { value := some c.2, next_id := headId post none, prev_id := lastId none pre } := by
  have hs := h.2.2.2.2.2.2
  rw [Seg_append, Seg_cons] at hs
  exact hs.2.1

theorem values_of_Inv {T : Type} {l : Ls T} {cs : List (Nat × T)} (h : Inv l cs) :
    values l = .ok (cs.map Prod.snd) := by
  simp [values, cells_of_Inv h]

theorem ids_of_Inv {T : Type} {l : Ls T} {cs : List (Nat × T)} (h : Inv l cs) :
    ids l = .ok (cs.map Prod.fst) := by
  simp [ids, cells_of_Inv h]

theorem insert_at_index {T : Type} (l : Ls T) (cs : List (Nat × T)) (h : Inv l cs)
    (i : Nat) (pos : It) (hpos : pos.m_id = (cs.map Prod.fst)[i]?) (v : T) :
    ∃ l2, insert l pos v = .ok (l2, { m_id := some l.m_max_id })
      ∧ Inv l2 (cs.take i ++ (l.m_max_id, v) :: cs.drop i) := by
  have h2 : Inv l (cs.take i ++ cs.drop i) := by rw [List.take_append_drop]; exact h
  exact insert_of_Inv l _ _ h2 pos (by rw [hpos, headId_drop]) v

/-- Decomposition of a reachable state read through `values` and `ids`. -/
theorem Inv_of_values_ids {T : Type} {l : Ls T} (hl : Reachable l) {xs : List T}
    {js : List Nat} (hxs : values l = .ok xs) (hjs : ids l = .ok js) :
    ∃ cs, Inv l cs ∧ cs.map Prod.snd = xs ∧ cs.map Prod.fst = js := by
  obtain ⟨cs, hinv⟩ := Inv_of_Reachable hl
  rw [values_of_Inv hinv] at hxs
  rw [ids_of_Inv hinv] at hjs
  exact ⟨cs, hinv, Except.ok.inj hxs, Except.ok.inj hjs⟩

/-! ## Single-element insertion -/

/-- C1. In a reachable list whose forward traversal reads `xs` (ids `js`), inserting `v`
at a valid position `pos` (the end sentinel, or a cursor on the element at index `i`,
that is `pos.m_id = js[i]?`) returns, and afterwards the forward traversal reads `xs`
with `v` placed immediately before index `i` (appended when `pos` is end) and `size`
has grown by one. -/
theorem insert_traversal {T : Type} (l : Ls T) (hl : Reachable l) (xs : List T)
    (js : List Nat) (hxs : values l = .ok xs) (hjs : ids l = .ok js)
    (i : Nat) (pos : It) (hpos : pos.m_id = js[i]?) (v : T) :
    ∃ l2 it, insert l pos v = .ok (l2, it)
      ∧ values l2 = .ok (xs.take i ++ v :: xs.drop i)
      ∧ size l2 = size l + 1 := by
  obtain ⟨cs, hinv, rfl, rfl⟩ := Inv_of_values_ids hl hxs hjs
  obtain ⟨l2, h1, h2⟩ := insert_at_index l cs hinv i pos hpos v
  refine ⟨l2, _, h1, ?_, ?_⟩
  · rw [values_of_Inv h2]
    simp [List.map_take, List.map_drop]
  · rw [size_of_Inv h2, size_of_Inv hinv]
    have := congrArg List.length (List.take_append_drop i cs)
    simp only [List.length_append, List.length_cons] at this ⊢
    omega


theorem ex12_reachable : Reachable ex12 :=
  @Reachable.push_back Nat _ ex12 2
    (@Reachable.push_back Nat Ls.init _ 1 Reachable.init rfl) rfl

theorem ex123_reachable : Reachable ex123 :=
  @Reachable.push_back Nat ex12 ex123 3 ex12_reachable rfl

theorem insert_traversal_witness :
    ∃ l2 it, insert ex12 { m_id := some 1 } 7 = .ok (l2, it)
      ∧ values l2 = .ok [1, 7, 2] ∧ size l2 = size ex12 + 1 :=
  insert_traversal ex12 ex12_reachable [1, 2] [0, 1] rfl rfl 1 { m_id := some 1 } rfl 7

/-- C2. In a reachable list with traversal ids `js`, for a valid position `pos`
(`pos.m_id = js[i]?`, the end sentinel when `i` is past the last index), the cursor
returned by `insert(pos, v)` dereferences to `v`, and advancing it forward once gives a
cursor equal to `pos`. -/
theorem insert_returns_cursor {T : Type} (l : Ls T) (hl : Reachable l)
    (js : List Nat) (hjs : ids l = .ok js)
    (i : Nat) (pos : It) (hpos : pos.m_id = js[i]?) (v : T) :
    ∃ l2 it, insert l pos v = .ok (l2, it)
      ∧ It.deref l2 it = .ok v ∧ It.inc l2 it = .ok pos := by
  obtain ⟨cs, hinv⟩ := Inv_of_Reachable hl
  rw [ids_of_Inv hinv] at hjs
  have hjs2 := Except.ok.inj hjs
  subst hjs2
  obtain ⟨l2, h1, h2⟩ := insert_at_index l cs hinv i pos hpos v
  have hn := node_of_Inv h2
  refine ⟨l2, _, h1, ?_, ?_⟩
  · simp [It.deref, nodeAt, hn]
  · simp only [It.inc, nodeAt, hn, headId_drop, ← hpos]

theorem insert_returns_cursor_witness :
    ∃ l2 it, insert ex12 { m_id := some 1 } 7 = .ok (l2, it)
      ∧ It.deref l2 it = .ok 7 ∧ It.inc l2 it = .ok { m_id := some 1 } :=
  insert_returns_cursor ex12 ex12_reachable [0, 1] rfl 1 { m_id := some 1 } rfl 7

/-- C3. Insertion at a valid position of a reachable list invalidates no cursor: with
`cs` the (id, payload) pairs of the traversal before `insert(pos, v)` and `cs2` those
after it, the new id `e` is none of the old ids, the ids of `cs2` are pairwise distinct,
every old pair is still in `cs2` and a cursor on its id dereferences to the same payload
before and after, and dropping the new element from `cs2` gives back `cs` in order. -/
theorem insert_keeps_cursors {T : Type} (l : Ls T) (hl : Reachable l)
    (cs : List (Nat × T)) (hcs : cells l = .ok cs)
    (i : Nat) (pos : It) (hpos : pos.m_id = (cs.map Prod.fst)[i]?) (v : T) :
    ∃ l2 e cs2, insert l pos v = .ok (l2, { m_id := some e }) ∧ cells l2 = .ok cs2
      ∧ (cs2.map Prod.fst).Nodup
      ∧ cs2.filter (fun c => decide (c.1 ≠ e)) = cs
      ∧ cs.Sublist cs2
      ∧ ∀ c ∈ cs, c.1 ≠ e ∧ c ∈ cs2
          ∧ It.deref l { m_id := some c.1 } = .ok c.2
          ∧ It.deref l2 { m_id := some c.1 } = .ok c.2 := by
  obtain ⟨ds, hinv⟩ := Inv_of_Reachable hl
  have hds := Inv_unique hinv hcs
  subst hds
  obtain ⟨l2, h1, h2⟩ := insert_at_index l cs hinv i pos hpos v
  have hne : ∀ c ∈ cs, c.1 ≠ l.m_max_id := by
    intro c hc
    have := Seg_lt hinv.2.2.2.2.2.2 c.1 (List.mem_map_of_mem Prod.fst hc)
    have := hinv.2.1
    omega
  have hmem : ∀ c ∈ cs, c ∈ cs.take i ++ (l.m_max_id, v) :: cs.drop i := by
    intro c hc
    rw [← List.take_append_drop i cs] at hc
    rcases List.mem_append.mp hc with h | h
    · exact List.mem_append_left _ h
    · exact List.mem_append_right _ (List.mem_cons_of_mem _ h)
  refine ⟨l2, l.m_max_id, _, h1, cells_of_Inv h2, h2.2.2.2.1, ?_, ?_, ?_⟩
  · have ht : ∀ c ∈ cs.take i, decide (c.1 ≠ l.m_max_id) = true := fun c hc =>
      decide_eq_true (hne c (List.mem_of_mem_take hc))
    have hd : ∀ c ∈ cs.drop i, decide (c.1 ≠ l.m_max_id) = true := fun c hc =>
      decide_eq_true (hne c (List.mem_of_mem_drop hc))
    rw [List.filter_append, List.filter_cons, List.filter_eq_self.mpr ht,
      List.filter_eq_self.mpr hd]
    simp
  · have := List.Sublist.append (List.Sublist.refl (cs.take i))
      (List.sublist_cons_self (l.m_max_id, v) (cs.drop i))
    rwa [List.take_append_drop] at this
  · intro c hc
    exact ⟨hne c hc, hmem c hc, deref_of_Inv hinv c hc, deref_of_Inv h2 c (hmem c hc)⟩

theorem insert_keeps_cursors_witness :
    ∃ l2 e cs2, insert ex12 { m_id := some 1 } 7 = .ok (l2, { m_id := some e })
      ∧ cells l2 = .ok cs2
      ∧ (cs2.map Prod.fst).Nodup
      ∧ cs2.filter (fun c => decide (c.1 ≠ e)) = [(0, 1), (1, 2)]
      ∧ [(0, 1), (1, 2)].Sublist cs2
      ∧ ∀ c ∈ [(0, 1), (1, 2)], c.1 ≠ e ∧ c ∈ cs2
          ∧ It.deref ex12 { m_id := some c.1 } = .ok c.2
          ∧ It.deref l2 { m_id := some c.1 } = .ok c.2 :=
  insert_keeps_cursors ex12 ex12_reachable [(0, 1), (1, 2)] rfl 1 { m_id := some 1 } rfl 7


/-! ## Size, anchors and the two ends -/

/-- C4. In every reachable state, following forward links from `begin()` reaches the
end sentinel after exactly `size()` steps: the traversal returns with any fuel of at
least `size()`, visits `size()` elements, and does not finish with less fuel. -/
theorem size_eq_distance {T : Type} (l : Ls T) (hl : Reachable l) :
    ∃ cs, cs.length = size l
      ∧ (∀ fuel, size l ≤ fuel → walk l fuel (cbegin l) = .ok cs)
      ∧ (∀ fuel, fuel < size l → walk l fuel (cbegin l) = .error .out_of_fuel) := by
  obtain ⟨cs, hinv⟩ := Inv_of_Reachable hl
  have hsz := size_of_Inv hinv
  have hw := walk_of_Seg l cs none hinv.2.2.2.2.2.2
  have hb : cbegin l = { m_id := headId cs none } := by rw [cbegin, hinv.2.2.2.2.1]
  refine ⟨cs, hsz.symm, ?_, ?_⟩
  · intro fuel hf
    rw [hb, hw fuel, if_pos (by omega)]
  · intro fuel hf
    rw [hb, hw fuel, if_neg (by omega)]

theorem size_eq_distance_witness :
    ∃ cs, cs.length = size ex123
      ∧ (∀ fuel, size ex123 ≤ fuel → walk ex123 fuel (cbegin ex123) = .ok cs)
      ∧ (∀ fuel, fuel < size ex123 → walk ex123 fuel (cbegin ex123) = .error .out_of_fuel) :=
  size_eq_distance ex123 ex123_reachable

theorem lastId_eq_none {T : Type} (cs : List (Nat × T)) : lastId none cs = none ↔ cs = [] := by
  rcases List.eq_nil_or_concat cs with rfl | ⟨pre, c, rfl⟩
  · simp [lastId]
  · simp [List.concat_eq_append, lastId_concat]

theorem headId_eq_none {T : Type} (cs : List (Nat × T)) : headId cs none = none ↔ cs = [] := by
  cases cs <;> simp [headId]

theorem updNode_error {T : Type} {nodes : List (Node T)} {i : Nat} {f : Node T → Node T}
    {e : Fault} (h : updNode nodes i f = .error e) : e = .out_of_range := by
  unfold updNode at h
  split at h
  · cases h
  · exact (Except.error.inj h).symm

theorem nodeAt_error {T : Type} {nodes : List (Node T)} {i : Nat}
    {e : Fault} (h : nodeAt nodes i = .error e) : e = .out_of_range := by
  unfold nodeAt at h
  split at h
  · cases h
  · exact (Except.error.inj h).symm

theorem insert_no_assertion {T : Type} (l : Ls T) (cs : List (Nat × T)) (h : Inv l cs)
    (pos : It) (v : T) : insert l pos v ≠ .error .assertion := by
  have hput := put_fresh l v h.1 h.2.1
  have hfl : l.m_first_id = none ↔ l.m_last_id = none := by
    rw [h.2.2.2.2.1, h.2.2.2.2.2.1, headId_eq_none, lastId_eq_none]
  obtain ⟨nodes, first, last, free, max⟩ := l
  simp only at hput hfl
  intro hins
  simp only [insert, hput] at hins
  repeat' split at hins
  all_goals first
    | (have hu := updNode_error ‹updNode _ _ _ = Except.error _›
       subst hu
       cases hins)
    | (have hu := nodeAt_error ‹nodeAt _ _ = Except.error _›
       subst hu
       cases hins)
    | simp_all

/-- C5. In every reachable state, `first_id` is absent iff `last_id` is absent iff
`empty()` iff `begin() == end()`; when present, the slot at `first_id` has no backward
link and the slot at `last_id` has no forward link; and no call of `insert`, whatever
its arguments, fails one of its two asserts. -/
theorem anchors_invariant {T : Type} (l : Ls T) (hl : Reachable l) :
    (l.m_first_id = none ↔ l.m_last_id = none)
      ∧ (l.m_last_id = none ↔ empty l = true)
      ∧ (empty l = true ↔ cbegin l = cend l)
      ∧ (∀ f, l.m_first_id = some f →
          ∃ node, nodeAt l.m_nodes f = .ok node ∧ node.prev_id = none)
      ∧ (∀ t, l.m_last_id = some t →
          ∃ node, nodeAt l.m_nodes t = .ok node ∧ node.next_id = none)
      ∧ (∀ pos v, insert l pos v ≠ .error .assertion) := by
  obtain ⟨cs, hinv⟩ := Inv_of_Reachable hl
  have hfirst := hinv.2.2.2.2.1
  have hlast := hinv.2.2.2.2.2.1
  have hsz := size_of_Inv hinv
  have hempty : empty l = true ↔ cs = [] := by
    simp [empty, hsz]
  have hbegin : cbegin l = cend l ↔ l.m_first_id = none := by
    simp [cbegin, cend]
  refine ⟨?_, ?_, ?_, ?_, ?_, insert_no_assertion l cs hinv⟩
  · rw [hfirst, hlast, headId_eq_none, lastId_eq_none]
  · rw [hlast, lastId_eq_none, hempty]
  · rw [hbegin, hfirst, headId_eq_none, hempty]
  · intro f hf
    cases cs with
    | nil => rw [hfirst] at hf; cases hf
    | cons c rest =>
      rw [hfirst] at hf
      have hc : c.1 = f := Option.some.inj hf
      have hn := @node_of_Inv T l [] rest c hinv
      refine ⟨{ value := some c.2, next_id := headId rest none, prev_id := none }, ?_, rfl⟩
      simp only [nodeAt, ← hc, hn, lastId]
  · intro t ht
    rcases List.eq_nil_or_concat cs with rfl | ⟨pre, c, rfl⟩
    · rw [hlast] at ht; cases ht
    · rw [List.concat_eq_append] at hinv hlast
      rw [hlast, lastId_concat] at ht
      have hc : c.1 = t := Option.some.inj ht
      have hn := @node_of_Inv T l pre [] c hinv
      refine ⟨{ value := some c.2, next_id := none, prev_id := lastId none pre }, ?_, rfl⟩
      simp only [nodeAt, ← hc, hn, headId]

theorem anchors_invariant_witness :
    (ex123.m_first_id = none ↔ ex123.m_last_id = none)
      ∧ (ex123.m_last_id = none ↔ empty ex123 = true)
      ∧ (empty ex123 = true ↔ cbegin ex123 = cend ex123)
      ∧ (∀ f, ex123.m_first_id = some f →
          ∃ node, nodeAt ex123.m_nodes f = .ok node ∧ node.prev_id = none)
      ∧ (∀ t, ex123.m_last_id = some t →
          ∃ node, nodeAt ex123.m_nodes t = .ok node ∧ node.next_id = none)
      ∧ (∀ pos v, insert ex123 pos v ≠ .error .assertion) :=
  anchors_invariant ex123 ex123_reachable

theorem front_back_of_Inv {T : Type} {l : Ls T} {cs : List (Nat × T)} (hinv : Inv l cs)
    (hne : cs.map Prod.snd ≠ []) :
    front l = .ok ((cs.map Prod.snd).head hne)
      ∧ back l = .ok ((cs.map Prod.snd).getLast hne) := by
  have hfirst := hinv.2.2.2.2.1
  have hlast := hinv.2.2.2.2.2.1
  constructor
  · cases cs with
    | nil => exact absurd rfl hne
    | cons c rest =>
      have hd := deref_of_Inv hinv c (List.mem_cons_self _ _)
      simp only [front, cbegin, hfirst, headId, hd, List.map_cons, List.head_cons]
  · rcases List.eq_nil_or_concat cs with rfl | ⟨pre, c, rfl⟩
    · exact absurd rfl hne
    · simp only [List.concat_eq_append] at hinv hlast hne ⊢
      have hd := deref_of_Inv hinv c (by simp)
      rw [lastId_concat] at hlast
      simp [back, It.dec, cend, hlast, hd]

/-- C6. For a reachable list whose forward traversal reads a non-empty `xs`, `front()`
returns the first element of `xs` and `back()` returns the last element of `xs`. -/
theorem front_back_ends {T : Type} (l : Ls T) (hl : Reachable l) (xs : List T)
    (hxs : values l = .ok xs) (hne : xs ≠ []) :
    front l = .ok (xs.head hne) ∧ back l = .ok (xs.getLast hne) := by
  obtain ⟨cs, hinv⟩ := Inv_of_Reachable hl
  rw [values_of_Inv hinv] at hxs
  have hx := Except.ok.inj hxs
  subst hx
  exact front_back_of_Inv hinv hne

theorem front_back_ends_witness :
    front ex123 = .ok 1 ∧ back ex123 = .ok 3 :=
  front_back_ends ex123 ex123_reachable [1, 2, 3] rfl (by decide)


/-! ## Sequences of end operations -/

theorem run_pushes_of_Inv {T : Type} (ops : List (Op T))
    (hp : ∀ op ∈ ops, op.isPush = true) (l : Ls T) (hl : Reachable l)
    (cs : List (Nat × T)) (hinv : Inv l cs) :
    ∃ l2 cs2, run l ops = .ok l2 ∧ Reachable l2 ∧ Inv l2 cs2
      ∧ cs2.map Prod.snd = refRun (cs.map Prod.snd) ops
      ∧ cs2.length = cs.length + ops.length := by
  induction ops generalizing l cs with
  | nil => exact ⟨l, cs, rfl, hl, hinv, rfl, rfl⟩
  | cons op ops ih =>
    have hp2 : ∀ o ∈ ops, o.isPush = true := fun o ho => hp o (List.mem_cons_of_mem _ ho)
    have hop := hp op (List.mem_cons_self _ _)
    cases op with
    | push_back v =>
      obtain ⟨l1, h1, h2⟩ := push_back_of_Inv l cs hinv v
      obtain ⟨l2, cs2, h3, h4, h5, h6, h7⟩ := ih hp2 l1 (Reachable.push_back hl h1) _ h2
      refine ⟨l2, cs2, by simp [run, step, h1, h3], h4, h5, ?_, ?_⟩
      · rw [h6]; simp [refRun, refStep]
      · rw [h7]; simp; omega
    | push_front v =>
      obtain ⟨l1, h1, h2⟩ := push_front_of_Inv l cs hinv v
      obtain ⟨l2, cs2, h3, h4, h5, h6, h7⟩ := ih hp2 l1 (Reachable.push_front hl h1) _ h2
      refine ⟨l2, cs2, by simp [run, step, h1, h3], h4, h5, ?_, ?_⟩
      · rw [h6]; simp [refRun, refStep]
      · rw [h7]; simp; omega
    | pop_back => cases hop
    | pop_front => cases hop

theorem refRun_push_back {T : Type} (xs ys : List T) :
    refRun ys (xs.map Op.push_back) = ys ++ xs := by
  induction xs generalizing ys with
  | nil => simp [refRun]
  | cons x xs ih =>
    have := ih (ys ++ [x])
    simp only [refRun, List.map_cons, List.foldl_cons, refStep] at this ⊢
    rw [this]; simp

/-- C7. Every finite sequence of `push_back` and `push_front` calls on an empty list
runs to completion; the forward traversal of the result equals the reference sequence
(append for `push_back`, prepend for `push_front`) and `size()` is the number of
calls. In particular, when the calls are `push_back` of `x1..xn` in turn (each an
insertion at `end()`), the forward traversal reads `x1..xn`. -/
theorem push_sequence {T : Type} (ops : List (Op T))
    (hp : ∀ op ∈ ops, op.isPush = true) :
    ∃ l, run Ls.init ops = .ok l ∧ Reachable l
      ∧ values l = .ok (refRun [] ops) ∧ size l = ops.length
      ∧ ∀ xs : List T, ops = xs.map Op.push_back → values l = .ok xs := by
  obtain ⟨l, cs, h1, h2, h3, h4, h5⟩ := run_pushes_of_Inv ops hp Ls.init Reachable.init [] Inv_init
  have hv : values l = .ok (refRun [] ops) := by
    rw [values_of_Inv h3, h4]; rfl
  refine ⟨l, h1, h2, hv, ?_, ?_⟩
  · rw [size_of_Inv h3, h5]; simp
  · intro xs hx
    rw [hv, hx, refRun_push_back]; simp

theorem push_sequence_witness :
    ∃ l, run Ls.init [Op.push_back 2, Op.push_front 1, Op.push_back 3] = .ok l ∧ Reachable l
      ∧ values l = .ok [1, 2, 3] ∧ size l = 3
      ∧ ∀ xs : List Nat, [Op.push_back 2, Op.push_front 1, Op.push_back 3] = xs.map Op.push_back →
          values l = .ok xs :=
  push_sequence [Op.push_back 2, Op.push_front 1, Op.push_back 3] (by decide)

/-! ## Erasure and clearing -/

/-- C8 (the code does not do this). Evaluation of `erase` on the list built by
`push_back(1); push_back(2)`, with the cursor `begin()`: the body of `erase` is empty,
so the traversal still reads `1, 2` with ids `0, 1`, `size()` is still 2, the id of the
erased position is still visited, and no cursor is returned. -/
theorem erase_removes_nothing :
    cells (erase ex12 (cbegin ex12)).1 = .ok [(0, 1), (1, 2)]
      ∧ values (erase ex12 (cbegin ex12)).1 = .ok [1, 2]
      ∧ size (erase ex12 (cbegin ex12)).1 = 2
      ∧ (erase ex12 (cbegin ex12)).2 = none
      ∧ (erase ex12 (cbegin ex12)).1.m_free_ids = [] :=
  ⟨rfl, rfl, rfl, rfl, rfl⟩

/-- C9 (the code does not do this). Evaluation of the scenario of `test_basic_usage`:
after `push_back` of 1, 2, 3 and one `pop_back`, the reference queue is `1, 2`, while
the list still has `size() == 3` and `back() == 3`; after a second `pop_back` it still
has `size() == 3`, `front() == 1` and `back() == 3`. -/
theorem pop_back_removes_nothing :
    run Ls.init [Op.push_back 1, Op.push_back 2, Op.push_back 3, Op.pop_back] = .ok ex123
      ∧ refRun [] [Op.push_back 1, Op.push_back 2, Op.push_back 3, Op.pop_back] = [1, 2]
      ∧ size ex123 = 3 ∧ back ex123 = .ok 3
      ∧ run Ls.init [Op.push_back 1, Op.push_back 2, Op.push_back 3, Op.pop_back, Op.pop_back]
          = .ok (ex123 : Ls Nat)
      ∧ refRun [] [Op.push_back 1, Op.push_back 2, Op.push_back 3, Op.pop_back, Op.pop_back]
          = ([1] : List Nat)
      ∧ front ex123 = .ok 1 :=
  ⟨rfl, rfl, rfl, rfl, rfl, rfl, rfl⟩

/-- C10. For every list state, `clear()` produces exactly the default-constructed state;
afterwards `size() == 0` and `begin() == end()`, and a following `push_back(v)` returns
a reachable (well-formed) list whose traversal is the single element `v`, with
`size() == 1` and `front() == back() == v`. -/
theorem clear_resets {T : Type} (l : Ls T) (v : T) :
    clear l = Ls.init ∧ size (clear l) = 0 ∧ empty (clear l) = true
      ∧ cbegin (clear l) = cend (clear l)
      ∧ ∃ l2, push_back (clear l) v = .ok l2 ∧ Reachable l2 ∧ Inv l2 [(0, v)]
          ∧ values l2 = .ok [v] ∧ size l2 = 1
          ∧ front l2 = .ok v ∧ back l2 = .ok v := by
  have hc : clear l = Ls.init := rfl
  rw [hc]
  refine ⟨rfl, rfl, rfl, rfl, ?_⟩
  obtain ⟨l2, h1, h2⟩ := push_back_of_Inv (Ls.init : Ls T) [] Inv_init v
  have hr : Reachable l2 := Reachable.push_back Reachable.init h1
  have hv := values_of_Inv h2
  have hfb := @front_back_of_Inv T l2 [(0, v)] h2 (by simp)
  exact ⟨l2, h1, hr, h2, hv, by rw [size_of_Inv h2]; rfl, hfb.1, hfb.2⟩


/-! ## Bulk insertion -/

theorem map_snd_fresh {T : Type} (m : Nat) (ys : List T) :
    (fresh m ys).map Prod.snd = ys := by
  induction ys generalizing m with
  | nil => rfl
  | cons y ys ih => simp [fresh, ih]

theorem map_fst_fresh {T : Type} (m : Nat) (ys : List T) :
    (fresh m ys).map Prod.fst = List.range' m ys.length := by
  induction ys generalizing m with
  | nil => rfl
  | cons y ys ih => simp [fresh, ih, List.range'_succ]

theorem insert_range_loop_of_Inv {T : Type} (ys : List T) (l : Ls T)
    (pre post : List (Nat × T)) (hinv : Inv l (pre ++ post)) (pos : It)
    (hpos : pos.m_id = headId post none) (it : It) :
    ∃ l2, insert_range_loop l pos it ys
        = .ok (l2, { m_id := lastId it.m_id (fresh l.m_max_id ys) })
      ∧ Inv l2 (pre ++ fresh l.m_max_id ys ++ post) := by
  induction ys generalizing l pre it with
  | nil => exact ⟨l, rfl, by simpa [fresh] using hinv⟩
  | cons y ys ih =>
    obtain ⟨l1, h1, h2⟩ := insert_of_Inv l pre post hinv pos hpos y
    have hmax : l1.m_max_id = l.m_max_id + 1 := by
      have a := h2.2.2.1
      have b := hinv.2.2.1
      simp only [List.length_append, List.length_cons] at a b
      omega
    have h3 : Inv l1 ((pre ++ [(l.m_max_id, y)]) ++ post) := by
      simpa using h2
    obtain ⟨l2, h4, h5⟩ := ih l1 (pre ++ [(l.m_max_id, y)]) h3 { m_id := some l.m_max_id }
    refine ⟨l2, ?_, ?_⟩
    · rw [insert_range_loop, h1]
      simp only
      rw [h4, hmax]
      rfl
    · rw [hmax] at h5
      simpa [fresh] using h5

theorem insert_range_at_index {T : Type} (l : Ls T) (cs : List (Nat × T)) (h : Inv l cs)
    (i : Nat) (pos : It) (hpos : pos.m_id = (cs.map Prod.fst)[i]?) (ys : List T) :
    ∃ l2, insert_range l pos ys
        = .ok (l2, { m_id := lastId pos.m_id (fresh l.m_max_id ys) })
      ∧ Inv l2 (cs.take i ++ fresh l.m_max_id ys ++ cs.drop i) := by
  have h2 : Inv l (cs.take i ++ cs.drop i) := by rw [List.take_append_drop]; exact h
  exact insert_range_loop_of_Inv ys l _ _ h2 pos (by rw [hpos, headId_drop]) pos

/-- C11 (as amended). In a reachable list whose forward traversal reads `xs` (ids `js`),
for a valid position `pos` (`pos.m_id = js[i]?`) and an input sequence `ys = x1..xn`,
the range form `insert(pos, first, last)` returns, and afterwards the new elements sit
immediately before `pos` in input order: the traversal reads
`xs.take i ++ ys ++ xs.drop i`, the new elements occupying the `n` consecutive ids
from the old `max_id`, between the ids that preceded `pos` and the id of `pos`. -/
theorem insert_range_order {T : Type} (l : Ls T) (hl : Reachable l) (xs : List T)
    (js : List Nat) (hxs : values l = .ok xs) (hjs : ids l = .ok js)
    (i : Nat) (pos : It) (hpos : pos.m_id = js[i]?) (ys : List T) :
    ∃ l2 it, insert_range l pos ys = .ok (l2, it)
      ∧ values l2 = .ok (xs.take i ++ ys ++ xs.drop i)
      ∧ ids l2 = .ok (js.take i ++ List.range' l.m_max_id ys.length ++ js.drop i) := by
  obtain ⟨cs, hinv, rfl, rfl⟩ := Inv_of_values_ids hl hxs hjs
  obtain ⟨l2, h1, h2⟩ := insert_range_at_index l cs hinv i pos hpos ys
  refine ⟨l2, _, h1, ?_, ?_⟩
  · rw [values_of_Inv h2]
    simp [List.map_take, List.map_drop, map_snd_fresh]
  · rw [ids_of_Inv h2]
    simp [List.map_take, List.map_drop, map_fst_fresh]

theorem insert_range_order_witness :
    ∃ l2 it, insert_range ex12 { m_id := some 1 } [7, 8] = .ok (l2, it)
      ∧ values l2 = .ok [1, 7, 8, 2]
      ∧ ids l2 = .ok [0, 2, 3, 1] :=
  insert_range_order ex12 ex12_reachable [1, 2] [0, 1] rfl rfl 1 { m_id := some 1 } rfl [7, 8]

/-- C11 (as stated, refuted). On the list `1, 2`, inserting the range `7, 8` before the
cursor on `2` gives the traversal `1, 7, 8, 2`, not the reversed `1, 8, 7, 2`. -/
theorem insert_range_not_reversed :
    ¬ ∃ l2 it, insert_range ex12 { m_id := some 1 } [7, 8] = .ok (l2, it)
        ∧ values l2 = .ok ([1] ++ [7, 8].reverse ++ [2]) := by
  rintro ⟨l2, it, h1, h2⟩
  have h3 : insert_range ex12 { m_id := some 1 } [7, 8] = .ok
      ({ m_nodes := [{ value := some 1, next_id := some 2, prev_id := none },
                     { value := some 2, next_id := none, prev_id := some 3 },
                     { value := some 7, next_id := some 3, prev_id := some 0 },
                     { value := some 8, next_id := some 1, prev_id := some 2 }],
         m_first_id := some 0, m_last_id := some 1, m_free_ids := [], m_max_id := 4 },
       { m_id := some 3 }) := rfl
  rw [h3] at h1
  have h4 := (Prod.mk.inj (Except.ok.inj h1)).1
  subst h4
  have h5 := Except.ok.inj h2
  revert h5
  decide

/-- C12 (the code does not do this). Evaluation of the range and count forms on the list
`1, 2` with the cursor on `2`: the range `7, 8` lands in slots 2 and 3 (traversal ids
`0, 2, 3, 1`), and the returned cursor holds id 3 and dereferences to `8`, the last
element inserted, not id 2 with payload `7`; the count form with two copies returns the
cursor on id 3 as well. With an empty range or a zero count the cursor returned is `pos`. -/
theorem insert_range_returns_last :
    ∃ l2 l3, insert_range ex12 { m_id := some 1 } [7, 8] = .ok (l2, { m_id := some 3 })
      ∧ cells l2 = .ok [(0, 1), (2, 7), (3, 8), (1, 2)]
      ∧ It.deref l2 { m_id := some 3 } = .ok 8
      ∧ insert_count ex12 { m_id := some 1 } 2 9 = .ok (l3, { m_id := some 3 })
      ∧ cells l3 = .ok [(0, 1), (2, 9), (3, 9), (1, 2)]
      ∧ insert_range ex12 { m_id := some 1 } [] = .ok (ex12, { m_id := some 1 })
      ∧ insert_count ex12 { m_id := some 1 } 0 9 = .ok (ex12, { m_id := some 1 }) :=
  ⟨_, _, rfl, rfl, rfl, rfl, rfl, rfl, rfl⟩


/-! ## Cursor stepping and link symmetry -/

theorem lastId_eq_getLast? {T : Type} (cs : List (Nat × T)) (prev : Option Nat) :
    lastId prev cs = ((cs.map Prod.fst).getLast?).or prev := by
  induction cs generalizing prev with
  | nil => rfl
  | cons c cs ih =>
    rw [lastId_cons, ih, List.map_cons, List.getLast?_cons]
    cases (cs.map Prod.fst).getLast? <;> rfl

theorem lastId_take {T : Type} (cs : List (Nat × T)) (k : Nat) (hk : k < cs.length) :
    lastId none (cs.take k) = if k = 0 then none else (cs.map Prod.fst)[k - 1]? := by
  rw [lastId_eq_getLast?, List.getLast?_eq_getElem?]
  by_cases h0 : k = 0
  · subst h0; simp
  · rw [if_neg h0]
    have hl : (List.map Prod.fst (List.take k cs)).length = k := by
      simp; omega
    rw [hl, List.map_take, List.getElem?_take_of_lt (by omega)]
    have : k - 1 < (cs.map Prod.fst).length := by simp; omega
    rw [List.getElem?_eq_getElem this]
    rfl

theorem node_at_index {T : Type} {l : Ls T} {cs : List (Nat × T)} (h : Inv l cs)
    (k : Nat) (hk : k < cs.length) :
    l.m_nodes[(cs[k]).1]? = some
      { value := some (cs[k]).2, next_id := (cs.map Prod.fst)[k + 1]?,
        prev_id := if k = 0 then none else (cs.map Prod.fst)[k - 1]? } := by
  have hsplit : cs = cs.take k ++ cs[k] :: cs.drop (k + 1) := by
    rw [← List.drop_eq_getElem_cons hk, List.take_append_drop]
  have h2 : Inv l (cs.take k ++ cs[k] :: cs.drop (k + 1)) := by rw [← hsplit]; exact h
  have hn := node_of_Inv h2
  rw [hn, headId_drop, lastId_take cs k hk]


theorem getElem?_map_fst {T : Type} (cs : List (Nat × T)) (k : Nat) (hk : k < cs.length) :
    (cs.map Prod.fst)[k]? = some (cs[k]).1 := by
  rw [List.getElem?_map, List.getElem?_eq_getElem hk]
  rfl

/-- C13. In a reachable list with traversal ids `js = i0..i(n-1)`: advancing forward a
cursor on `ik` gives a cursor on `i(k+1)` (the end sentinel when `k = n-1`), advancing
forward the end sentinel leaves it at end, advancing backward a cursor on `ik` with
`k > 0` gives a cursor on `i(k-1)`, and advancing backward the end sentinel gives a
cursor holding `last_id`, which is `i(n-1)`. -/
theorem cursor_stepping {T : Type} (l : Ls T) (hl : Reachable l) (js : List Nat)
    (hjs : ids l = .ok js) :
    (∀ k, k < js.length → It.inc l { m_id := js[k]? } = .ok { m_id := js[k + 1]? })
      ∧ It.inc l (cend l) = .ok (cend l)
      ∧ (∀ k, 0 < k → k < js.length →
          It.dec l { m_id := js[k]? } = .ok { m_id := js[k - 1]? })
      ∧ It.dec l (cend l) = .ok { m_id := l.m_last_id }
      ∧ l.m_last_id = js.getLast? := by
  obtain ⟨cs, hinv⟩ := Inv_of_Reachable hl
  rw [ids_of_Inv hinv] at hjs
  have hj := Except.ok.inj hjs
  subst hj
  refine ⟨?_, rfl, ?_, rfl, ?_⟩
  · intro k hk
    have hk2 : k < cs.length := by simpa using hk
    rw [getElem?_map_fst cs k hk2]
    simp only [It.inc, nodeAt, node_at_index hinv k hk2]
  · intro k h0 hk
    have hk2 : k < cs.length := by simpa using hk
    rw [getElem?_map_fst cs k hk2]
    simp only [It.dec, nodeAt, node_at_index hinv k hk2, if_neg (Nat.pos_iff_ne_zero.mp h0)]
  · rw [hinv.2.2.2.2.2.1, lastId_eq_getLast?]
    cases (cs.map Prod.fst).getLast? <;> rfl

theorem cursor_stepping_witness :
    (∀ k, k < [0, 1, 2].length →
        It.inc ex123 { m_id := [0, 1, 2][k]? } = .ok { m_id := [0, 1, 2][k + 1]? })
      ∧ It.inc ex123 (cend ex123) = .ok (cend ex123)
      ∧ (∀ k, 0 < k → k < [0, 1, 2].length →
          It.dec ex123 { m_id := [0, 1, 2][k]? } = .ok { m_id := [0, 1, 2][k - 1]? })
      ∧ It.dec ex123 (cend ex123) = .ok { m_id := ex123.m_last_id }
      ∧ ex123.m_last_id = [0, 1, 2].getLast? :=
  cursor_stepping ex123 ex123_reachable [0, 1, 2] rfl

/-- C19. For a reachable non-empty list, advancing `begin()` backward gives the end
sentinel (a cursor without id, equal to `end()`), advancing that forward stays at
`end()`, and `end()` differs from `begin()`: stepping backward then forward from
`begin()` does not come back to `begin()`. -/
theorem dec_begin_is_end {T : Type} (l : Ls T) (hl : Reachable l) (hne : empty l = false) :
    It.dec l (cbegin l) = .ok (cend l)
      ∧ It.inc l (cend l) = .ok (cend l)
      ∧ cend l ≠ cbegin l
      ∧ (∀ it, It.dec l (cbegin l) = .ok it → It.inc l it = .ok (cend l) ∧ it ≠ cbegin l) := by
  obtain ⟨cs, hinv⟩ := Inv_of_Reachable hl
  have hsz := size_of_Inv hinv
  have hfirst := hinv.2.2.2.2.1
  cases cs with
  | nil => simp [empty, hsz] at hne
  | cons c rest =>
    have hn := @node_of_Inv T l [] rest c hinv
    have hd : It.dec l (cbegin l) = .ok (cend l) := by
      simp only [It.dec, cbegin, hfirst, headId, nodeAt, hn, lastId, cend]
    have hneq : cend l ≠ cbegin l := by
      simp [cend, cbegin, hfirst, headId]
    refine ⟨hd, rfl, hneq, ?_⟩
    intro it hit
    rw [hd] at hit
    have := Except.ok.inj hit
    subst this
    exact ⟨rfl, hneq⟩

theorem dec_begin_is_end_witness :
    It.dec ex123 (cbegin ex123) = .ok (cend ex123)
      ∧ It.inc ex123 (cend ex123) = .ok (cend ex123)
      ∧ cend ex123 ≠ cbegin ex123
      ∧ (∀ it, It.dec ex123 (cbegin ex123) = .ok it →
          It.inc ex123 it = .ok (cend ex123) ∧ it ≠ cbegin ex123) :=
  dec_begin_is_end ex123 ex123_reachable rfl


theorem walk_back_of_Seg {T : Type} (l : Ls T) (cs : List (Nat × T)) (nxt : Option Nat)
    (hs : Seg l.m_nodes none cs nxt) (fuel : Nat) :
    walk_back l fuel { m_id := lastId none cs } =
      if cs.length ≤ fuel then .ok cs.reverse else .error .out_of_fuel := by
  induction cs using List.reverseRecOn generalizing nxt fuel with
  | nil => cases fuel <;> simp [walk_back, lastId]
  | append_singleton pre c ih =>
    rw [Seg_append, Seg_cons] at hs
    obtain ⟨hpre, hc, -⟩ := hs
    rw [lastId_concat]
    cases fuel with
    | zero => simp [walk_back]
    | succ fuel =>
      have h2 := ih _ hpre fuel
      rw [walk_back]
      simp only [It.deref, It.dec, nodeAt, hc, h2, List.length_append, List.length_singleton,
        Nat.add_le_add_iff_right, List.reverse_append, List.reverse_singleton,
        List.singleton_append]
      by_cases hle : pre.length ≤ fuel <;> simp [hle]

theorem nodup_getElem?_eq {js : List Nat} (hnd : js.Nodup) (i j : Nat) (hj : j < js.length) :
    js[i]? = some js[j] ↔ i = j := by
  constructor
  · intro h
    obtain ⟨hi, he⟩ := List.getElem?_eq_some_iff.mp h
    exact (hnd.getElem_inj_iff).mp he
  · intro h
    subst h
    exact List.getElem?_eq_getElem hj

/-- C18. In a reachable list with traversal cells `cs`: for all live ids `a` and `b`, the
slot of `a` has forward link `b` iff the slot of `b` has backward link `a`; and
following backward links from `last_id` visits exactly the reverse of the forward
traversal, `size()` elements (so `size() - 1` backward steps), the last of them being
the slot `first_id`. -/
theorem link_symmetry {T : Type} (l : Ls T) (hl : Reachable l) (cs : List (Nat × T))
    (hcs : cells l = .ok cs) :
    (∀ a b, a ∈ cs.map Prod.fst → b ∈ cs.map Prod.fst →
        ((∃ na, l.m_nodes[a]? = some na ∧ na.next_id = some b)
          ↔ (∃ nb, l.m_nodes[b]? = some nb ∧ nb.prev_id = some a)))
      ∧ (∀ fuel, size l ≤ fuel →
          walk_back l fuel { m_id := l.m_last_id } = .ok cs.reverse)
      ∧ (∀ fuel, fuel < size l →
          walk_back l fuel { m_id := l.m_last_id } = .error .out_of_fuel)
      ∧ (cs.reverse.map Prod.fst).getLast? = l.m_first_id := by
  obtain ⟨ds, hinv⟩ := Inv_of_Reachable hl
  have hds := Inv_unique hinv hcs
  subst hds
  have hsz := size_of_Inv hinv
  have hnd := hinv.2.2.2.1
  have hw := walk_back_of_Seg l cs none hinv.2.2.2.2.2.2
  rw [← hinv.2.2.2.2.2.1] at hw
  refine ⟨?_, ?_, ?_, ?_⟩
  · intro a b ha hb
    obtain ⟨k, hk, hka⟩ := List.mem_iff_getElem.mp ha
    obtain ⟨m, hm, hmb⟩ := List.mem_iff_getElem.mp hb
    have hk2 : k < cs.length := by simpa using hk
    have hm2 : m < cs.length := by simpa using hm
    have hak : a = (cs[k]).1 := by rw [← hka]; simp
    have hbm : b = (cs[m]).1 := by rw [← hmb]; simp
    have hna := node_at_index hinv k hk2
    have hnb := node_at_index hinv m hm2
    rw [← hak] at hna
    rw [← hbm] at hnb
    have e1 : (cs.map Prod.fst)[k + 1]? = some b ↔ k + 1 = m := by
      rw [← hmb]; exact nodup_getElem?_eq hnd (k + 1) m hm
    have e2 : (cs.map Prod.fst)[m - 1]? = some a ↔ m - 1 = k := by
      rw [← hka]; exact nodup_getElem?_eq hnd (m - 1) k hk
    constructor
    · rintro ⟨na, h1, h2⟩
      rw [hna] at h1
      have := Option.some.inj h1
      subst this
      have hkm := e1.mp h2
      refine ⟨_, hnb, ?_⟩
      show (if m = 0 then none else (cs.map Prod.fst)[m - 1]?) = some a
      rw [if_neg (by omega)]
      exact e2.mpr (by omega)
    · rintro ⟨nb, h1, h2⟩
      rw [hnb] at h1
      have := Option.some.inj h1
      subst this
      have h3 : (if m = 0 then none else (cs.map Prod.fst)[m - 1]?) = some a := h2
      by_cases h0 : m = 0
      · rw [if_pos h0] at h3; cases h3
      · rw [if_neg h0] at h3
        have hkm := e2.mp h3
        refine ⟨_, hna, ?_⟩
        exact e1.mpr (by omega)
  · intro fuel hf
    rw [hw fuel, if_pos (by omega)]
  · intro fuel hf
    rw [hw fuel, if_neg (by omega)]
  · rw [hinv.2.2.2.2.1, headId_none, List.map_reverse, List.getLast?_reverse]

theorem link_symmetry_witness :
    (∀ a b, a ∈ [(0, 1), (1, 2), (2, 3)].map Prod.fst → b ∈ [(0, 1), (1, 2), (2, 3)].map Prod.fst →
        ((∃ na, ex123.m_nodes[a]? = some na ∧ na.next_id = some b)
          ↔ (∃ nb, ex123.m_nodes[b]? = some nb ∧ nb.prev_id = some a)))
      ∧ (∀ fuel, size ex123 ≤ fuel →
          walk_back ex123 fuel { m_id := ex123.m_last_id } = .ok [(0, 1), (1, 2), (2, 3)].reverse)
      ∧ (∀ fuel, fuel < size ex123 →
          walk_back ex123 fuel { m_id := ex123.m_last_id } = .error .out_of_fuel)
      ∧ ([(0, 1), (1, 2), (2, 3)].reverse.map Prod.fst).getLast? = ex123.m_first_id :=
  link_symmetry ex123 ex123_reachable [(0, 1), (1, 2), (2, 3)] rfl


/-! ## Index safety -/

theorem InStore_of_mem_ids {T : Type} {l : Ls T} {cs : List (Nat × T)} (h : Inv l cs)
    (id : Nat) (hid : id ∈ cs.map Prod.fst) : InStore l id := by
  have hs := h.2.2.2.2.2.2
  obtain ⟨c, hc, rfl⟩ := List.mem_map.mp hid
  obtain ⟨nx, pv, hn⟩ := Seg_mem hs c hc
  exact ⟨Seg_lt hs c.1 hid, _, c.2, hn, rfl⟩

theorem insert_valid_of_Inv {T : Type} (l : Ls T) (cs : List (Nat × T)) (h : Inv l cs)
    (pos : It) (hpos : pos.m_id = none ∨ ∃ id, pos.m_id = some id ∧ id ∈ cs.map Prod.fst)
    (v : T) : ∃ l2 it, insert l pos v = .ok (l2, it) := by
  rcases hpos with hpos | ⟨id, hpos, hmem⟩
  · obtain ⟨l2, h1, -⟩ := insert_end_of_Inv l cs h pos hpos v
    exact ⟨l2, _, h1⟩
  · obtain ⟨c, hc1, hc2⟩ := List.mem_map.mp hmem
    obtain ⟨pre, post, rfl⟩ := List.append_of_mem hc1
    obtain ⟨l2, h1, -⟩ := insert_of_Inv l pre (c :: post) h pos (by rw [hpos, ← hc2]; rfl) v
    exact ⟨l2, _, h1⟩

/-- C20. In a reachable list with traversal cells `cs`: the backing store has exactly
`max_id` slots; the free set is empty (so holds only ids below `max_id`); `first_id`,
`last_id` and both links of every live slot, when present, are below the store length
and name a slot whose payload is present; stepping a cursor on a live id either way
and dereferencing it return without fault; and `insert` at a valid position returns
without fault. -/
theorem index_safety {T : Type} (l : Ls T) (hl : Reachable l) (cs : List (Nat × T))
    (hcs : cells l = .ok cs) :
    l.m_nodes.length = l.m_max_id
      ∧ l.m_free_ids = [] ∧ (∀ i ∈ l.m_free_ids, i < l.m_max_id)
      ∧ (∀ id, l.m_first_id = some id ∨ l.m_last_id = some id → InStore l id)
      ∧ (∀ c ∈ cs, InStore l c.1 ∧ ∀ node, l.m_nodes[c.1]? = some node →
          ∀ id, node.next_id = some id ∨ node.prev_id = some id → InStore l id)
      ∧ (∀ c ∈ cs, (∃ it, It.inc l { m_id := some c.1 } = .ok it)
          ∧ (∃ it, It.dec l { m_id := some c.1 } = .ok it)
          ∧ It.deref l { m_id := some c.1 } = .ok c.2)
      ∧ (∀ (pos : It) (v : T),
          (pos.m_id = none ∨ ∃ id, pos.m_id = some id ∧ id ∈ cs.map Prod.fst) →
          ∃ l2 it, insert l pos v = .ok (l2, it)) := by
  obtain ⟨ds, hinv⟩ := Inv_of_Reachable hl
  have hds := Inv_unique hinv hcs
  subst hds
  have hf := hinv.1
  refine ⟨hinv.2.1, hf, by rw [hf]; simp, ?_, ?_, ?_, ?_⟩
  · intro id hid
    apply InStore_of_mem_ids hinv
    rcases hid with hid | hid
    · rw [hinv.2.2.2.2.1, headId_none] at hid
      exact List.mem_of_mem_head? hid
    · rw [hinv.2.2.2.2.2.1, lastId_eq_getLast?] at hid
      apply List.mem_of_getLast?_eq_some
      cases hg : (cs.map Prod.fst).getLast? with
      | none => rw [hg] at hid; cases hid
      | some x => rw [hg] at hid; exact hid
  · intro c hc
    refine ⟨InStore_of_mem_ids hinv c.1 (List.mem_map_of_mem Prod.fst hc), ?_⟩
    obtain ⟨k, hk, rfl⟩ := List.mem_iff_getElem.mp hc
    intro node hnode id hid
    rw [node_at_index hinv k hk] at hnode
    have := Option.some.inj hnode
    subst this
    apply InStore_of_mem_ids hinv
    rcases hid with hid | hid
    · exact List.getElem?_mem hid
    · have hid2 : (if k = 0 then none else (cs.map Prod.fst)[k - 1]?) = some id := hid
      by_cases h0 : k = 0
      · rw [if_pos h0] at hid2; cases hid2
      · rw [if_neg h0] at hid2
        exact List.getElem?_mem hid2
  · intro c hc
    obtain ⟨nx, pv, hn⟩ := Seg_mem hinv.2.2.2.2.2.2 c hc
    refine ⟨⟨{ m_id := nx }, ?_⟩, ⟨{ m_id := pv }, ?_⟩, deref_of_Inv hinv c hc⟩
    · simp only [It.inc, nodeAt, hn]
    · simp only [It.dec, nodeAt, hn]
  · intro pos v hpos
    exact insert_valid_of_Inv l cs hinv pos hpos v

theorem index_safety_witness :
    ex123.m_nodes.length = ex123.m_max_id
      ∧ ex123.m_free_ids = [] ∧ (∀ i ∈ ex123.m_free_ids, i < ex123.m_max_id)
      ∧ (∀ id, ex123.m_first_id = some id ∨ ex123.m_last_id = some id → InStore ex123 id)
      ∧ (∀ c ∈ [(0, 1), (1, 2), (2, 3)], InStore ex123 c.1 ∧ ∀ node,
          ex123.m_nodes[c.1]? = some node →
          ∀ id, node.next_id = some id ∨ node.prev_id = some id → InStore ex123 id)
      ∧ (∀ c ∈ [(0, 1), (1, 2), (2, 3)], (∃ it, It.inc ex123 { m_id := some c.1 } = .ok it)
          ∧ (∃ it, It.dec ex123 { m_id := some c.1 } = .ok it)
          ∧ It.deref ex123 { m_id := some c.1 } = .ok c.2)
      ∧ (∀ (pos : It) (v : Nat),
          (pos.m_id = none ∨ ∃ id, pos.m_id = some id
            ∧ id ∈ [(0, 1), (1, 2), (2, 3)].map Prod.fst) →
          ∃ l2 it, insert ex123 pos v = .ok (l2, it)) :=
  index_safety ex123 ex123_reachable [(0, 1), (1, 2), (2, 3)] rfl


/-! ## Range erasure, slot allocation and reverse cursors -/

/-- C14 (the code does not do this). Evaluation of `erase(first, last)` on the list
`1, 2, 3` with `first = begin()` and `last` the cursor on `3`: the body is empty, so
the traversal still reads `1, 2, 3`, `size()` is still 3 and no cursor is returned. -/
theorem erase_range_removes_nothing :
    cells (erase_range ex123 (cbegin ex123) { m_id := some 2 }).1
        = .ok [(0, 1), (1, 2), (2, 3)]
      ∧ values (erase_range ex123 (cbegin ex123) { m_id := some 2 }).1 = .ok [1, 2, 3]
      ∧ size (erase_range ex123 (cbegin ex123) { m_id := some 2 }).1 = 3
      ∧ (erase_range ex123 (cbegin ex123) { m_id := some 2 }).2 = none :=
  ⟨rfl, rfl, rfl, rfl⟩

theorem length_le_of_nodup_lt {xs : List Nat} {m : Nat} (hnd : xs.Nodup)
    (hlt : ∀ i ∈ xs, i < m) : xs.length ≤ m := by
  have h1 : xs.toFinset ⊆ Finset.range m := by
    intro i hi
    exact Finset.mem_range.mpr (hlt i (List.mem_toFinset.mp hi))
  have h2 := Finset.card_le_card h1
  rwa [List.toFinset_card_of_nodup hnd, Finset.card_range] at h2

/-- C15. For every arena state of the data model (one slot per id below `max_id`, free
ids distinct and below `max_id`), `put(value)` returns: with a non-empty free set the
id comes out of the free set, which loses exactly that id, and `max_id` is unchanged;
with an empty free set the id is the old `max_id`, `max_id` grows by one and the free
set is unchanged. Either way the slot at the returned id is in the store with payload
`value` and both links absent, and `size()` has grown by exactly one. -/
theorem put_contract {T : Type} (l : Ls T) (h : ArenaOk l) (value : T) :
    ∃ l2 id, put l value = .ok (l2, id)
      ∧ (l.m_free_ids ≠ [] → id ∈ l.m_free_ids ∧ l2.m_free_ids = l.m_free_ids.erase id
          ∧ id ∉ l2.m_free_ids ∧ l2.m_max_id = l.m_max_id)
      ∧ (l.m_free_ids = [] → id = l.m_max_id ∧ l2.m_max_id = l.m_max_id + 1
          ∧ l2.m_free_ids = l.m_free_ids)
      ∧ id < l2.m_nodes.length
      ∧ l2.m_nodes[id]? = some { value := some value, next_id := none, prev_id := none }
      ∧ size l2 = size l + 1 := by
  obtain ⟨hn, hnd, hlt⟩ := h
  have hlen := length_le_of_nodup_lt hnd hlt
  obtain ⟨nodes, first, last, free, max⟩ := l
  simp only at hn hnd hlt hlen
  subst hn
  cases free with
  | nil =>
    have hput := put_fresh (Ls.mk nodes first last [] nodes.length) value rfl rfl
    refine ⟨_, _, hput, ?_, ?_, ?_, ?_, ?_⟩
    · intro hne; exact absurd rfl hne
    · intro _; exact ⟨rfl, rfl, rfl⟩
    · simp
    · simp
    · simp [size, nb_ids]
  | cons id rest =>
    have hid : id < nodes.length := hlt id (List.mem_cons_self _ _)
    have hr : resize nodes (id + 1) = nodes.take (id + 1) := by
      simp [resize, Nat.sub_eq_zero_of_le (Nat.succ_le_of_lt hid)]
    have hg : (nodes.take (id + 1))[id]? = some nodes[id] := by
      rw [List.getElem?_take_of_lt (Nat.lt_succ_self id), List.getElem?_eq_getElem hid]
    have hput : put (Ls.mk nodes first last (id :: rest) nodes.length) value
        = .ok (Ls.mk ((nodes.take (id + 1)).set id (Node.mk (some value) none none))
                 first last rest nodes.length, id) := by
      simp [put, hr, Nat.le_of_lt hid, updNode_of_getElem? hg]
    have hnotin : id ∉ rest := (List.nodup_cons.mp hnd).1
    have hlt2 : id < (nodes.take (id + 1)).length := by
      rw [List.length_take]; omega
    refine ⟨_, _, hput, ?_, ?_, ?_, ?_, ?_⟩
    · intro _
      exact ⟨List.mem_cons_self _ _, by simp, hnotin, rfl⟩
    · intro hnil; cases hnil
    · simpa using hlt2
    · simp only
      rw [List.getElem?_set_self hlt2]
    · simp only [List.length_cons] at hlen
      simp only [size, nb_ids, List.length_cons]
      rw [if_pos (by omega), if_pos hlen]
      omega

theorem ArenaOk_of_Reachable {T : Type} {l : Ls T} (hl : Reachable l) : ArenaOk l := by
  obtain ⟨cs, hinv⟩ := Inv_of_Reachable hl
  refine ⟨hinv.2.1, ?_, ?_⟩
  · rw [hinv.1]; exact List.nodup_nil
  · rw [hinv.1]; simp

theorem exFreed_arena : ArenaOk exFreed :=
  ⟨rfl, by decide, by decide⟩

theorem put_contract_witness :
    ∃ l2 id, put exFreed 9 = .ok (l2, id)
      ∧ (exFreed.m_free_ids ≠ [] → id ∈ exFreed.m_free_ids
          ∧ l2.m_free_ids = exFreed.m_free_ids.erase id
          ∧ id ∉ l2.m_free_ids ∧ l2.m_max_id = exFreed.m_max_id)
      ∧ (exFreed.m_free_ids = [] → id = exFreed.m_max_id
          ∧ l2.m_max_id = exFreed.m_max_id + 1 ∧ l2.m_free_ids = exFreed.m_free_ids)
      ∧ id < l2.m_nodes.length
      ∧ l2.m_nodes[id]? = some { value := some 9, next_id := none, prev_id := none }
      ∧ size l2 = size exFreed + 1 :=
  put_contract exFreed exFreed_arena 9

/-- Evaluation of `put(9)` on the arena state `exFreed` (three slots, `max_id` 3, free
set `{0}`), a state of the data model that no sequence of calls of the source produces,
since nothing releases an id: the id returned is 0 and, since `0 <= m_nodes.size()`,
the store is resized to one slot. -/
theorem put_reuse_truncates :
    ArenaOk exFreed ∧ exFreed.m_free_ids ≠ [] ∧ exFreed.m_nodes.length = 3
      ∧ ∃ l2, put exFreed 9 = .ok (l2, 0)
        ∧ l2.m_nodes.length = 1
        ∧ exFreed.m_nodes[1]? = some { value := some 2, next_id := some 2, prev_id := none }
        ∧ l2.m_nodes[1]? = none
        ∧ l2.m_nodes[2]? = none
        ∧ insert exFreed (cend exFreed) 9 = .error .out_of_range :=
  ⟨⟨rfl, by decide, by decide⟩, by decide, rfl, _, rfl, rfl, rfl, rfl, rfl, rfl⟩

/-- C17 (the code does not do this). Evaluation of the reverse cursors on the list
`1, 2, 3`: `rbegin()` wraps `begin()` and `rend()` wraps `end()`. The first dereference
of the traversal from `rbegin()` to `rend()` steps `begin()` backward to the end
sentinel and reads through its absent id, so nothing is visited; `3, 2, 1` is what the
traversal from a reverse cursor on `end()` to one on `begin()` reads. -/
theorem rbegin_wraps_begin :
    rbegin ex123 = { current := cbegin ex123 }
      ∧ rend ex123 = { current := cend ex123 }
      ∧ RevIt.deref ex123 (rbegin ex123) = .error .empty_optional
      ∧ rwalk ex123 (rend ex123) 3 (rbegin ex123) = .error .empty_optional
      ∧ rwalk ex123 { current := cbegin ex123 } 3 { current := cend ex123 } = .ok [3, 2, 1] :=
  ⟨rfl, rfl, rfl, rfl, rfl⟩

end VecList
